import Mathlib

/-!
Verification of the `DualIcosphereGraph` mesh builder
(`landlab/graph/quasi_spherical/dual_icosphere.py`).

The builder consumes a vertex list and a triangle list (produced by an
external icosahedron-refinement step) and constructs the primal/dual mesh
tables: links with endpoint and incidence tables, patches, corners,
faces and cells.

Embedding conventions:

* Vertex coordinates are rational triples (exact stand-ins for the floats
  fed to the builder); all real-valued geometry (normals, angles, arc
  lengths, areas) lives in `ℝ`-valued definitions layered on top of the
  purely structural construction.
* The structural construction `buildStruct` is computable and returns
  `Option PreMesh`: `none` models a Python exception escaping the
  constructor (numpy `IndexError` on an out-of-bounds table write, the
  `TypeError` raised when `setup_faces` unpacks a single-patch dictionary
  entry, a `KeyError` on a missing key).  Where numpy accepts negative
  indices by wrapping, the embedding wraps as well.
* The geometry helpers `arc_length`, `area_of_sphertri`,
  `cartesian_to_spherical` and `rotate_zy` are imported by the source from
  `landlab.utils.geometry.spherical`, a module whose code is not part of
  the sources under review; they are modelled from the spec (each marked
  `Modelled from the spec:` below).
* Python's insertion-ordered `dict` is modelled as an association list
  that appends fresh keys and updates existing keys in place.
-/

namespace DualIcosphere

/-! ## Association-list model of Python dicts -/

/-- Lookup in an insertion-ordered association list (Python `d[k]` /
`k in d`). -/
def alookup {κ α : Type} [DecidableEq κ] : List (κ × α) → κ → Option α
  | [], _ => none
  | e :: rest, k => if e.1 = k then some e.2 else alookup rest k

/-- Update the value stored at an existing key, keeping insertion order. -/
def updAssoc {κ α : Type} [DecidableEq κ] : List (κ × α) → κ → α → List (κ × α)
  | [], _, _ => []
  | e :: rest, k, v => if e.1 = k then (k, v) :: rest else e :: updAssoc rest k v

theorem alookup_append_of_isSome {κ α : Type} [DecidableEq κ] (l1 l2 : List (κ × α)) (k : κ)
    (h : (alookup l1 k).isSome) : alookup (l1 ++ l2) k = alookup l1 k := by
  induction l1 with
  | nil => simp [alookup] at h
  | cons e rest ih =>
    by_cases he : e.1 = k
    · simp [alookup, he]
    · simp only [alookup, he, if_false] at h ⊢
      exact ih h

theorem alookup_append_of_none {κ α : Type} [DecidableEq κ] (l1 l2 : List (κ × α)) (k : κ)
    (h : alookup l1 k = none) : alookup (l1 ++ l2) k = alookup l2 k := by
  induction l1 with
  | nil => simp
  | cons e rest ih =>
    by_cases he : e.1 = k
    · simp [alookup, he] at h
    · simp only [alookup, he, if_false] at h ⊢
      exact ih h

theorem alookup_isSome_iff_mem {κ α : Type} [DecidableEq κ] (l : List (κ × α)) (k : κ) :
    (alookup l k).isSome ↔ k ∈ l.map Prod.fst := by
  induction l with
  | nil => simp [alookup]
  | cons e rest ih =>
    by_cases he : e.1 = k
    · simp [alookup, he]
    · simp only [alookup, he, if_false, List.map_cons, List.mem_cons, ih]
      constructor
      · exact Or.inr
      · rintro (h | h)
        · exact absurd h.symm he
        · exact h

theorem alookup_updAssoc_self {κ α : Type} [DecidableEq κ] (l : List (κ × α)) (k : κ) (v : α)
    (h : (alookup l k).isSome) : alookup (updAssoc l k v) k = some v := by
  induction l with
  | nil => simp [alookup] at h
  | cons e rest ih =>
    by_cases he : e.1 = k
    · simp [updAssoc, he, alookup]
    · simp only [alookup, he, if_false] at h
      simp only [updAssoc, he, if_false, alookup]
      exact ih h

theorem alookup_updAssoc_ne {κ α : Type} [DecidableEq κ] (l : List (κ × α)) (k k2 : κ) (v : α)
    (h : k2 ≠ k) : alookup (updAssoc l k v) k2 = alookup l k2 := by
  induction l with
  | nil => simp [updAssoc]
  | cons e rest ih =>
    by_cases he : e.1 = k
    · subst he
      simp [updAssoc, alookup, Ne.symm h]
    · simp only [updAssoc, he, if_false, alookup]
      by_cases h2 : e.1 = k2
      · simp [h2]
      · simp [h2, ih]

theorem map_fst_updAssoc {κ α : Type} [DecidableEq κ] (l : List (κ × α)) (k : κ) (v : α) :
    (updAssoc l k v).map Prod.fst = l.map Prod.fst := by
  induction l with
  | nil => simp [updAssoc]
  | cons e rest ih =>
    by_cases he : e.1 = k
    · simp [updAssoc, he]
    · simp [updAssoc, he, ih]

/-! ## Geometry kernel

Vector operations written out exactly as the numpy code computes them
(`np.cross`, componentwise subtraction, `np.sqrt(x**2 + y**2 + z**2)`). -/

/-- Rational Cartesian coordinates of an input vertex. -/
abbrev Vec3 := ℚ × ℚ × ℚ

/-- A triangle of three vertex indices, in input order. -/
abbrev Tri := ℕ × ℕ × ℕ

/-- Real-valued coordinate triple. -/
abbrev RV3 := ℝ × ℝ × ℝ

/-- Cast a rational input vertex to real coordinates. -/
noncomputable def toRV (v : Vec3) : RV3 := ((v.1 : ℝ), (v.2.1 : ℝ), (v.2.2 : ℝ))

/-- Componentwise difference of two coordinate triples. -/
noncomputable def sub3 (a b : RV3) : RV3 := (a.1 - b.1, a.2.1 - b.2.1, a.2.2 - b.2.2)

/-- Dot product. -/
noncomputable def dot3 (a b : RV3) : ℝ := a.1 * b.1 + a.2.1 * b.2.1 + a.2.2 * b.2.2

/-- Cross product, as computed by `np.cross`. -/
noncomputable def cross3 (a b : RV3) : RV3 :=
  (a.2.1 * b.2.2 - a.2.2 * b.2.1, a.2.2 * b.1 - a.1 * b.2.2, a.1 * b.2.1 - a.2.1 * b.1)

/-- Scale a coordinate triple by a scalar. -/
noncomputable def scale3 (k : ℝ) (a : RV3) : RV3 := (k * a.1, k * a.2.1, k * a.2.2)

/-- Euclidean length, `np.sqrt(x**2 + y**2 + z**2)`. -/
noncomputable def norm3 (a : RV3) : ℝ := Real.sqrt (a.1 ^ 2 + a.2.1 ^ 2 + a.2.2 ^ 2)

/-- Modelled from the spec: `arc_length` of
`landlab.utils.geometry.spherical` (module not among the sources under
review).  Spec, glossary: "Great-circle arc length: shortest-path distance
between two points on a sphere's surface, scaled by radius"; callers
multiply the result by `radius`, so `arc_length` itself is the central
angle between the two points on the sphere of radius `r`. -/
noncomputable def arc_length (p1 p2 : RV3) (r : ℝ) : ℝ :=
  Real.arccos (dot3 p1 p2 / r ^ 2)

/-- Modelled from the spec: `area_of_sphertri` of
`landlab.utils.geometry.spherical` (module not among the sources under
review), "the spherical-excess (L'Huilier-class) formula" for the area of
the spherical triangle with vertices `p0 p1 p2` on the sphere of radius
`r`. -/
noncomputable def area_of_sphertri (p0 p1 p2 : RV3) (r : ℝ) : ℝ :=
  let a := arc_length p1 p2 r
  let b := arc_length p0 p2 r
  let c := arc_length p0 p1 r
  let s := (a + b + c) / 2
  4 * Real.arctan (Real.sqrt
    (Real.tan (s / 2) * Real.tan ((s - a) / 2) * Real.tan ((s - b) / 2) *
      Real.tan ((s - c) / 2))) * r ^ 2

/-- Quadrant-aware arctangent with the conventions of `np.arctan2`
(`atan2(0, 0) = 0`, range `(-pi, pi]`). -/
noncomputable def atan2 (y x : ℝ) : ℝ :=
  if 0 < x then Real.arctan (y / x)
  else if x < 0 then
    (if 0 ≤ y then Real.arctan (y / x) + Real.pi else Real.arctan (y / x) - Real.pi)
  else if 0 < y then Real.pi / 2
  else if y < 0 then -(Real.pi / 2)
  else 0

/-- Modelled from the spec: `cartesian_to_spherical` of
`landlab.utils.geometry.spherical` (module not among the sources under
review).  Returns "(radius, polar angle, azimuth)" data in the source's
`(r, phi, theta)` order, with `phi` the azimuth `atan2(y, x)` about the
z axis and `theta` the polar angle from the +z axis. -/
noncomputable def cartesian_to_spherical (x y z : ℝ) : ℝ × ℝ × ℝ :=
  let r := Real.sqrt (x ^ 2 + y ^ 2 + z ^ 2)
  (r, atan2 y x, Real.arccos (z / r))

/-- Modelled from the spec: `rotate_zy` of
`landlab.utils.geometry.spherical` (module not among the sources under
review): rotate `(x, y, z)` about the z axis by angle `a`, then about the
y axis by angle `b` ("Rotate ... by the *negative* of the node's azimuth
and then by the negative of the node's polar angle"). -/
noncomputable def rotate_zy (x y z a b : ℝ) : RV3 :=
  let x1 := x * Real.cos a - y * Real.sin a
  let y1 := x * Real.sin a + y * Real.cos a
  let z1 := z
  (x1 * Real.cos b + z1 * Real.sin b, y1, -x1 * Real.sin b + z1 * Real.cos b)

/-! ## Link registry (`add_link` / the dedup loop of `setup_links`)

`add_link(p1, p2)` registers an edge in the dict `self.links` keyed by
`(min(p1, p2) << 32) + max(p1, p2)`, keeping the first-seen orientation. -/

/-- The packed dict key `(min(p1, p2) << 32) + max(p1, p2)`. -/
def packKey (p1 p2 : ℕ) : ℕ := min p1 p2 * 2 ^ 32 + max p1 p2

/-- One `add_link(p1, p2)` call: append the oriented pair under its packed
key unless the key is already present. -/
def add_link (links : List (ℕ × (ℕ × ℕ))) (p1 p2 : ℕ) : List (ℕ × (ℕ × ℕ)) :=
  if (alookup links (packKey p1 p2)).isSome then links
  else links ++ [(packKey p1 p2, (p1, p2))]

/-- The dict `self.links` built by the `for icoface in ico_faces` loop of
`setup_links`: three `add_link` calls per triangle. -/
def linkRegistry (ico_faces : List Tri) : List (ℕ × (ℕ × ℕ)) :=
  ico_faces.foldl
    (fun links t => add_link (add_link (add_link links t.1 t.2.1) t.2.1 t.2.2) t.2.2 t.1) []

/-- The three directed edges a triangle feeds to `add_link`, in call order. -/
def triEdges (t : Tri) : List (ℕ × ℕ) := [(t.1, t.2.1), (t.2.1, t.2.2), (t.2.2, t.1)]

/-- All `add_link` call arguments, flattened over the triangle list. -/
def edgeEvents (ico_faces : List Tri) : List (ℕ × ℕ) := (ico_faces.map triEdges).flatten

/-- `add_link` as a step function over edge events. -/
def dedupStep (links : List (ℕ × (ℕ × ℕ))) (e : ℕ × ℕ) : List (ℕ × (ℕ × ℕ)) :=
  add_link links e.1 e.2

/-- The first edge event carrying a given packed key. -/
def firstWith (es : List (ℕ × ℕ)) (k : ℕ) : Option (ℕ × ℕ) :=
  es.find? (fun e => packKey e.1 e.2 == k)

theorem linkRegistry_eq_dedup (ico_faces : List Tri) :
    linkRegistry ico_faces = (edgeEvents ico_faces).foldl dedupStep [] := by
  suffices h : ∀ (fs : List Tri) (acc : List (ℕ × (ℕ × ℕ))),
      fs.foldl
        (fun links t => add_link (add_link (add_link links t.1 t.2.1) t.2.1 t.2.2) t.2.2 t.1)
        acc = ((fs.map triEdges).flatten).foldl dedupStep acc by
    exact h ico_faces []
  intro fs
  induction fs with
  | nil => intro acc; rfl
  | cons t rest ih =>
    intro acc
    simp only [List.foldl_cons, List.map_cons, List.flatten_cons, List.foldl_append]
    exact ih _

theorem alookup_dedup_foldl (es : List (ℕ × ℕ)) (k : ℕ) :
    ∀ acc : List (ℕ × (ℕ × ℕ)),
      alookup (es.foldl dedupStep acc) k =
        match alookup acc k with
        | some v => some v
        | none => firstWith es k := by
  induction es with
  | nil =>
    intro acc
    cases h : alookup acc k <;> simp [firstWith, h]
  | cons e rest ih =>
    intro acc
    rw [List.foldl_cons, ih]
    cases h : alookup acc k with
    | some v =>
      have hs : alookup (dedupStep acc e) k = some v := by
        unfold dedupStep add_link
        by_cases hin : (alookup acc (packKey e.1 e.2)).isSome
        · rw [if_pos hin]; exact h
        · rw [if_neg hin, alookup_append_of_isSome _ _ _ (by simp [h])]
          exact h
      simp [hs]
    | none =>
      by_cases hk : packKey e.1 e.2 = k
      · have hs : alookup (dedupStep acc e) k = some e := by
          unfold dedupStep add_link
          rw [hk, if_neg (by simp [h]), alookup_append_of_none _ _ _ h]
          simp [alookup]
        simp only [hs]
        have : firstWith (e :: rest) k = some e := by
          simp [firstWith, List.find?_cons, hk]
        rw [this]
      · have hs : alookup (dedupStep acc e) k = none := by
          unfold dedupStep add_link
          by_cases hin : (alookup acc (packKey e.1 e.2)).isSome
          · rw [if_pos hin]; exact h
          · rw [if_neg hin, alookup_append_of_none _ _ _ h]
            simp [alookup, hk]
        simp only [hs]
        have : firstWith (e :: rest) k = firstWith rest k := by
          simp [firstWith, List.find?_cons, hk]
        rw [this]

/-- The registry's packed keys are pairwise distinct. -/
theorem linkRegistry_keys_nodup (ico_faces : List Tri) :
    ((linkRegistry ico_faces).map Prod.fst).Nodup := by
  rw [linkRegistry_eq_dedup]
  suffices h : ∀ (es : List (ℕ × ℕ)) (acc : List (ℕ × (ℕ × ℕ))),
      ((acc.map Prod.fst).Nodup) → (((es.foldl dedupStep acc).map Prod.fst).Nodup) by
    exact h _ [] (by simp)
  intro es
  induction es with
  | nil => intro acc h; exact h
  | cons e rest ih =>
    intro acc h
    rw [List.foldl_cons]
    apply ih
    unfold dedupStep add_link
    by_cases hin : (alookup acc (packKey e.1 e.2)).isSome
    · rw [if_pos hin]; exact h
    · rw [if_neg hin]
      simp only [List.map_append, List.map_cons, List.map_nil]
      rw [List.nodup_append]
      refine ⟨h, List.nodup_singleton _, ?_⟩
      intro k hk hmem
      simp only [List.mem_singleton] at hmem
      subst hmem
      exact hin ((alookup_isSome_iff_mem _ _).mpr hk)

theorem alookup_eq_of_mem {κ α : Type} [DecidableEq κ] (l : List (κ × α)) (k : κ) (v : α)
    (hmem : (k, v) ∈ l) (hnd : (l.map Prod.fst).Nodup) : alookup l k = some v := by
  induction l with
  | nil => simp at hmem
  | cons e rest ih =>
    simp only [List.map_cons, List.nodup_cons] at hnd
    rcases List.mem_cons.mp hmem with h | h
    · subst h
      simp [alookup]
    · have hne : e.1 ≠ k := by
        intro hk
        exact hnd.1 (hk ▸ (List.mem_map.mpr ⟨(k, v), h, rfl⟩))
      simp only [alookup, hne, if_false]
      exact ih h hnd.2

/-- Every registry entry stores, under its key, the *first* edge event
seen with that key (first-seen orientation). -/
theorem linkRegistry_value_first (ico_faces : List Tri) (k : ℕ) (v : ℕ × ℕ)
    (hmem : (k, v) ∈ linkRegistry ico_faces) :
    firstWith (edgeEvents ico_faces) k = some v := by
  have h1 : alookup (linkRegistry ico_faces) k = some v :=
    alookup_eq_of_mem _ _ _ hmem (linkRegistry_keys_nodup ico_faces)
  have h2 := alookup_dedup_foldl (edgeEvents ico_faces) k []
  rw [← linkRegistry_eq_dedup] at h2
  simpa [alookup, h1] using h2.symm

/-- A packed key is registered exactly when some edge event carries it. -/
theorem linkRegistry_mem_key_iff (ico_faces : List Tri) (k : ℕ) :
    (k ∈ (linkRegistry ico_faces).map Prod.fst) ↔
      ∃ e ∈ edgeEvents ico_faces, packKey e.1 e.2 = k := by
  rw [← alookup_isSome_iff_mem]
  have h2 := alookup_dedup_foldl (edgeEvents ico_faces) k []
  rw [← linkRegistry_eq_dedup] at h2
  simp only [alookup] at h2
  rw [h2]
  constructor
  · intro h
    rcases Option.isSome_iff_exists.mp h with ⟨e, he⟩
    have := List.find?_some he
    refine ⟨e, List.mem_of_find?_eq_some he, by simpa using this⟩
  · rintro ⟨e, hmem, hkey⟩
    unfold firstWith
    rw [List.find?_isSome]
    exact ⟨e, hmem, by simpa using hkey⟩

/-- Keys below `2^32` unpack uniquely to their unordered pair. -/
theorem packKey_inj (a b c d : ℕ) (hab : max a b < 2 ^ 32) (hcd : max c d < 2 ^ 32)
    (h : packKey a b = packKey c d) : min a b = min c d ∧ max a b = max c d := by
  unfold packKey at h
  omega

/-- Registered edge events with matching unordered pairs are exactly the
triangles mentioning both endpoints (for distinct endpoints). -/
theorem mentionsBoth_iff_triEdge (t : Tri) (a b : ℕ) (hab : a ≠ b) :
    ((a = t.1 ∨ a = t.2.1 ∨ a = t.2.2) ∧ (b = t.1 ∨ b = t.2.1 ∨ b = t.2.2)) ↔
      ∃ e ∈ triEdges t, min e.1 e.2 = min a b ∧ max e.1 e.2 = max a b := by
  obtain ⟨x, y, z⟩ := t
  simp only [triEdges, List.mem_cons, List.mem_singleton, List.not_mem_nil]
  constructor
  · rintro ⟨(rfl | rfl | rfl), (rfl | rfl | rfl)⟩
    · exact absurd rfl hab
    · exact ⟨(a, b), by simp, by omega⟩
    · exact ⟨(b, a), by simp, by omega⟩
    · exact ⟨(b, a), by simp, by omega⟩
    · exact absurd rfl hab
    · exact ⟨(a, b), by simp, by omega⟩
    · exact ⟨(a, b), by simp, by omega⟩
    · exact ⟨(b, a), by simp, by omega⟩
    · exact absurd rfl hab
  · rintro ⟨e, (rfl | rfl | rfl | h), hmin, hmax⟩ <;> try omega
    cases h

/-! ## Fixed-capacity slot fill

Both `links_at_node`/`link_dirs_at_node` (filled by the second loop of
`setup_links`) and `corners_at_node` (filled by `setup_patches_and_corners`)
are `(number_of_nodes, 6)` tables written at the next free slot of a node's
row, with a per-node write counter.  A write beyond column 5 or to a row
index outside the table is a numpy `IndexError`, modelled as `none`.
`corners_at_node` has no companion direction table; it reuses the same
machinery with the direction component ignored. -/

/-- State of a capacity-6 slot fill: the index table (sentinel `-1`), the
parallel direction table (initialised to `0`), and the per-node write
counters (`link_at_node_index` / `corners_at_node_index`). -/
structure FillTab where
  tbl : List (List ℤ)
  dirs : List (List ℤ)
  cnt : List ℕ

/-- Initial fill state for `n` nodes. -/
def initFill (n : ℕ) : FillTab :=
  ⟨List.replicate n (List.replicate 6 (-1)), List.replicate n (List.replicate 6 0),
    List.replicate n 0⟩

/-- Write value `e.2.1` with direction `e.2.2` into the next free slot of
node `e.1`, as in `tbl[node, cnt[node]] = value`. -/
def fillStep (s : FillTab) (e : ℕ × ℤ × ℤ) : Option FillTab :=
  match s.cnt[e.1]?, s.tbl[e.1]?, s.dirs[e.1]? with
  | some c, some row, some drow =>
    if c < 6 then
      some ⟨s.tbl.set e.1 (row.set c e.2.1), s.dirs.set e.1 (drow.set c e.2.2),
        s.cnt.set e.1 (c + 1)⟩
    else none
  | _, _, _ => none

/-- Run a sequence of slot writes. -/
def fillRun (s : FillTab) (es : List (ℕ × ℤ × ℤ)) : Option FillTab :=
  es.foldlM fillStep s

/-- The (value, direction) writes destined for one node, in order. -/
def rowOf (es : List (ℕ × ℤ × ℤ)) (nd : ℕ) : List (ℤ × ℤ) :=
  (es.filter (fun e => e.1 == nd)).map (fun e => e.2)

/-- Invariant tying a fill state to the events already processed. -/
def FillInv (n : ℕ) (done : List (ℕ × ℤ × ℤ)) (s : FillTab) : Prop :=
  s.tbl.length = n ∧ s.dirs.length = n ∧ s.cnt.length = n ∧
  ∀ nd, nd < n →
    (rowOf done nd).length ≤ 6 ∧
    s.cnt[nd]? = some (rowOf done nd).length ∧
    s.tbl[nd]? = some ((rowOf done nd).map Prod.fst ++
      List.replicate (6 - (rowOf done nd).length) (-1)) ∧
    s.dirs[nd]? = some ((rowOf done nd).map Prod.snd ++
      List.replicate (6 - (rowOf done nd).length) 0)

theorem fillInv_init (n : ℕ) : FillInv n [] (initFill n) := by
  refine ⟨by simp [initFill], by simp [initFill], by simp [initFill], ?_⟩
  intro nd hnd
  simp [rowOf, initFill, List.getElem?_replicate, hnd]

theorem rowOf_append_self (done : List (ℕ × ℤ × ℤ)) (e : ℕ × ℤ × ℤ) :
    rowOf (done ++ [e]) e.1 = rowOf done e.1 ++ [e.2] := by
  simp [rowOf, List.filter_append]

theorem rowOf_append_ne (done : List (ℕ × ℤ × ℤ)) (e : ℕ × ℤ × ℤ) (nd : ℕ)
    (h : e.1 ≠ nd) : rowOf (done ++ [e]) nd = rowOf done nd := by
  simp [rowOf, List.filter_append, h]

theorem set_at_length {α : Type} (l1 l2 : List α) (v : α) :
    (l1 ++ l2).set l1.length v = l1 ++ l2.set 0 v := by
  simp [List.set_append]

theorem fillInv_step (n : ℕ) (done : List (ℕ × ℤ × ℤ)) (s s2 : FillTab)
    (e : ℕ × ℤ × ℤ) (hinv : FillInv n done s) (hstep : fillStep s e = some s2) :
    FillInv n (done ++ [e]) s2 ∧ e.1 < n := by
  obtain ⟨hlt, hld, hlc, hrows⟩ := hinv
  have hen : e.1 < n := by
    by_contra hge
    have h1 : s.cnt[e.1]? = none := by
      rw [List.getElem?_eq_none_iff]
      omega
    simp [fillStep, h1] at hstep
  obtain ⟨hm6, hc, ht, hd⟩ := hrows e.1 hen
  set m := (rowOf done e.1).length with hm
  have hm6' : (rowOf done e.1).length < 6 := by
    rcases lt_or_eq_of_le hm6 with h | h
    · exact h
    · exfalso
      simp only [fillStep, hc, ht, hd, ← hm, h] at hstep
      simp at hstep
  have hs2 : s2 = ⟨s.tbl.set e.1 (((rowOf done e.1).map Prod.fst ++
      List.replicate (6 - m) (-1)).set m e.2.1),
      s.dirs.set e.1 (((rowOf done e.1).map Prod.snd ++
        List.replicate (6 - m) 0).set m e.2.2),
      s.cnt.set e.1 (m + 1)⟩ := by
    simp only [fillStep, hc, ht, hd, ← hm, if_pos hm6'] at hstep
    exact (Option.some_inj.mp hstep).symm
  subst hs2
  have hrep : ∀ (v : ℤ) (w : ℤ), (List.replicate (6 - m) v).set 0 w =
      w :: List.replicate (6 - (m + 1)) v := by
    intro v w
    have h6 : 6 - m = (6 - (m + 1)) + 1 := by omega
    rw [h6, List.replicate_succ]
    rfl
  have hsetfst : ((rowOf done e.1).map Prod.fst ++ List.replicate (6 - m) (-1)).set m e.2.1 =
      (rowOf done e.1 ++ [e.2]).map Prod.fst ++ List.replicate (6 - (m + 1)) (-1) := by
    have := set_at_length ((rowOf done e.1).map Prod.fst) (List.replicate (6 - m) (-1)) e.2.1
    rw [List.length_map] at this
    rw [← hm] at this
    rw [this, hrep]
    simp
  have hsetsnd : ((rowOf done e.1).map Prod.snd ++ List.replicate (6 - m) 0).set m e.2.2 =
      (rowOf done e.1 ++ [e.2]).map Prod.snd ++ List.replicate (6 - (m + 1)) 0 := by
    have := set_at_length ((rowOf done e.1).map Prod.snd) (List.replicate (6 - m) 0) e.2.2
    rw [List.length_map] at this
    rw [← hm] at this
    rw [this, hrep]
    simp
  refine ⟨⟨by simpa using hlt, by simpa using hld, by simpa using hlc, ?_⟩, hen⟩
  intro nd hnd
  by_cases hnde : e.1 = nd
  · subst hnde
    rw [rowOf_append_self]
    constructor
    · simp only [List.length_append, List.length_singleton]
      omega
    refine ⟨?_, ?_, ?_⟩
    · rw [List.getElem?_set_self (by omega)]
      simp [← hm]
    · rw [List.getElem?_set_self (by omega), hsetfst]
      simp [← hm]
    · rw [List.getElem?_set_self (by omega), hsetsnd]
      simp [← hm]
  · rw [rowOf_append_ne _ _ _ hnde]
    obtain ⟨h1, h2, h3, h4⟩ := hrows nd hnd
    refine ⟨h1, ?_, ?_, ?_⟩
    · rw [List.getElem?_set_ne hnde]; exact h2
    · rw [List.getElem?_set_ne hnde]; exact h3
    · rw [List.getElem?_set_ne hnde]; exact h4

theorem fillInv_run (n : ℕ) (es : List (ℕ × ℤ × ℤ)) :
    ∀ (done : List (ℕ × ℤ × ℤ)) (s s2 : FillTab), FillInv n done s →
      fillRun s es = some s2 →
      FillInv n (done ++ es) s2 ∧ ∀ e ∈ es, e.1 < n := by
  induction es with
  | nil =>
    intro done s s2 hinv hrun
    simp only [fillRun, List.foldlM_nil, Option.pure_def, Option.some_inj] at hrun
    subst hrun
    simpa using hinv
  | cons e rest ih =>
    intro done s s2 hinv hrun
    simp only [fillRun, List.foldlM_cons] at hrun
    cases hstep : fillStep s e with
    | none => simp [hstep] at hrun
    | some s1 =>
      rw [hstep] at hrun
      simp only [Option.bind_eq_bind, Option.some_bind] at hrun
      obtain ⟨hinv1, hen⟩ := fillInv_step n done s s1 e hinv hstep
      obtain ⟨hinv2, hrest⟩ := ih (done ++ [e]) s1 s2 hinv1 hrun
      refine ⟨by simpa using hinv2, ?_⟩
      intro x hx
      rcases List.mem_cons.mp hx with h | h
      · subst h; exact hen
      · exact hrest x h

/-- Success-form characterisation of a complete fill from the initial
state: each node's row holds exactly its writes in order, sentinel-padded. -/
theorem fillRun_success (n : ℕ) (es : List (ℕ × ℤ × ℤ)) (s : FillTab)
    (hs : fillRun (initFill n) es = some s) :
    (∀ nd, nd < n →
      (rowOf es nd).length ≤ 6 ∧
      s.cnt[nd]? = some (rowOf es nd).length ∧
      s.tbl[nd]? = some ((rowOf es nd).map Prod.fst ++
        List.replicate (6 - (rowOf es nd).length) (-1)) ∧
      s.dirs[nd]? = some ((rowOf es nd).map Prod.snd ++
        List.replicate (6 - (rowOf es nd).length) 0)) ∧
    ∀ e ∈ es, e.1 < n := by
  obtain ⟨hinv, hall⟩ := fillInv_run n es [] (initFill n) s (fillInv_init n) hs
  simp only [List.nil_append] at hinv
  exact ⟨hinv.2.2.2, hall⟩

/-! ## The patch-pair dictionary of `setup_faces`

`patches_at_node_pair` maps an unordered node pair (an edge) to the patch
index first seen with that edge, upgraded to the ordered pair
`(min, max)` of the two patch indices on a second registration.  A third
registration executes Python's `min(int, tuple)` and raises `TypeError`,
modelled as `none`. -/

/-- A dictionary entry: one patch seen so far, or the final ordered pair. -/
inductive PatchEntry where
  | one : ℕ → PatchEntry
  | two : ℕ → ℕ → PatchEntry
  deriving DecidableEq

/-- The three canonical edge keys of a patch, in the `j = 0, 1, 2` order of
the source (`n1 = nodes_at_patch[i, j-1]`, `n2 = nodes_at_patch[i, j]`). -/
def patchEdgeKeys (t : Tri) : List (ℕ × ℕ) :=
  [(min t.2.2 t.1, max t.2.2 t.1), (min t.1 t.2.1, max t.1 t.2.1),
    (min t.2.1 t.2.2, max t.2.1 t.2.2)]

/-- All `(edge key, patch index)` registrations, in loop order. -/
def patchPairEvents (pats : List Tri) : List ((ℕ × ℕ) × ℕ) :=
  (pats.enum.map (fun p => (patchEdgeKeys p.2).map (fun k => (k, p.1)))).flatten

/-- One registration into the dictionary. -/
def patchPairStep (d : List ((ℕ × ℕ) × PatchEntry)) (ev : (ℕ × ℕ) × ℕ) :
    Option (List ((ℕ × ℕ) × PatchEntry)) :=
  match alookup d ev.1 with
  | none => some (d ++ [(ev.1, PatchEntry.one ev.2)])
  | some (PatchEntry.one p) =>
    some (updAssoc d ev.1 (PatchEntry.two (min ev.2 p) (max ev.2 p)))
  | some (PatchEntry.two _ _) => none

/-- The dictionary built by the first loop of `setup_faces`. -/
def patches_at_node_pair (pats : List Tri) : Option (List ((ℕ × ℕ) × PatchEntry)) :=
  (patchPairEvents pats).foldlM patchPairStep []

/-- The patch indices registered under one key, in order. -/
def regsAt (evs : List ((ℕ × ℕ) × ℕ)) (k : ℕ × ℕ) : List ℕ :=
  (evs.filter (fun ev => ev.1 == k)).map (fun ev => ev.2)

/-- Replay of the dictionary-entry state machine on one key's
registrations. -/
def pairAcc : List ℕ → Option PatchEntry
  | [] => none
  | [p] => some (PatchEntry.one p)
  | p :: q :: _ => some (PatchEntry.two (min q p) (max q p))

theorem regsAt_append_self (done : List ((ℕ × ℕ) × ℕ)) (ev : (ℕ × ℕ) × ℕ) :
    regsAt (done ++ [ev]) ev.1 = regsAt done ev.1 ++ [ev.2] := by
  simp [regsAt, List.filter_append]

theorem regsAt_append_ne (done : List ((ℕ × ℕ) × ℕ)) (ev : (ℕ × ℕ) × ℕ) (k : ℕ × ℕ)
    (h : ev.1 ≠ k) : regsAt (done ++ [ev]) k = regsAt done k := by
  simp [regsAt, List.filter_append, h]

/-- Invariant of the dictionary loop: the entry under each key replays
that key's registration prefix, which never exceeds two patches. -/
def PairInv (done : List ((ℕ × ℕ) × ℕ)) (d : List ((ℕ × ℕ) × PatchEntry)) : Prop :=
  ∀ k, (regsAt done k).length ≤ 2 ∧ alookup d k = pairAcc (regsAt done k)

theorem pairInv_step (done : List ((ℕ × ℕ) × ℕ)) (d d2 : List ((ℕ × ℕ) × PatchEntry))
    (ev : (ℕ × ℕ) × ℕ) (hinv : PairInv done d) (hstep : patchPairStep d ev = some d2) :
    PairInv (done ++ [ev]) d2 := by
  obtain ⟨hle, hlook⟩ := hinv ev.1
  intro k
  by_cases hk : ev.1 = k
  · subst hk
    rw [regsAt_append_self]
    cases hregs : regsAt done ev.1 with
    | nil =>
      rw [hregs] at hlook
      simp only [pairAcc] at hlook
      simp only [patchPairStep, hlook] at hstep
      obtain rfl := Option.some_inj.mp hstep
      refine ⟨by simp [hregs], ?_⟩
      rw [alookup_append_of_none _ _ _ hlook]
      simp [alookup, pairAcc]
    | cons p rest =>
      cases rest with
      | nil =>
        rw [hregs] at hlook
        simp only [pairAcc] at hlook
        simp only [patchPairStep, hlook] at hstep
        obtain rfl := Option.some_inj.mp hstep
        refine ⟨by simp [hregs], ?_⟩
        rw [alookup_updAssoc_self _ _ _ (by simp [hlook])]
        simp [pairAcc]
      | cons q rest2 =>
        rw [hregs] at hlook
        simp only [pairAcc] at hlook
        simp [patchPairStep, hlook] at hstep
  · rw [regsAt_append_ne _ _ _ hk]
    obtain ⟨hle2, hlook2⟩ := hinv k
    refine ⟨hle2, ?_⟩
    cases hregs : regsAt done ev.1 with
    | nil =>
      rw [hregs] at hlook
      simp only [pairAcc] at hlook
      simp only [patchPairStep, hlook] at hstep
      obtain rfl := Option.some_inj.mp hstep
      rcases hcase : alookup d k with _ | v
      · rw [alookup_append_of_none _ _ _ hcase]
        rw [hcase] at hlook2
        have hsingle : alookup [(ev.1, PatchEntry.one ev.2)] k = none := by
          simp [alookup, hk]
        rw [hsingle, hlook2]
      · rw [alookup_append_of_isSome _ _ _ (by simp [hcase]), hcase]
        rw [hcase] at hlook2
        exact hlook2
    | cons p rest =>
      cases rest with
      | nil =>
        rw [hregs] at hlook
        simp only [pairAcc] at hlook
        simp only [patchPairStep, hlook] at hstep
        obtain rfl := Option.some_inj.mp hstep
        rw [alookup_updAssoc_ne _ _ _ _ (fun h => hk h.symm)]
        exact hlook2
      | cons q rest2 =>
        rw [hregs] at hlook
        simp only [pairAcc] at hlook
        simp [patchPairStep, hlook] at hstep

theorem pairInv_run (evs : List ((ℕ × ℕ) × ℕ)) :
    ∀ (done : List ((ℕ × ℕ) × ℕ)) (d d2 : List ((ℕ × ℕ) × PatchEntry)),
      PairInv done d → evs.foldlM patchPairStep d = some d2 →
      PairInv (done ++ evs) d2 := by
  induction evs with
  | nil =>
    intro done d d2 hinv hrun
    simp only [List.foldlM_nil, Option.pure_def, Option.some_inj] at hrun
    subst hrun
    simpa using hinv
  | cons ev rest ih =>
    intro done d d2 hinv hrun
    simp only [List.foldlM_cons] at hrun
    cases hstep : patchPairStep d ev with
    | none => simp [hstep] at hrun
    | some d1 =>
      rw [hstep] at hrun
      simp only [Option.bind_eq_bind, Option.some_bind] at hrun
      have hinv1 := pairInv_step done d d1 ev hinv hstep
      have hinv2 := ih (done ++ [ev]) d1 d2 hinv1 hrun
      simpa using hinv2

/-- Success-form characterisation of the patch-pair dictionary. -/
theorem patches_at_node_pair_spec (pats : List Tri) (d : List ((ℕ × ℕ) × PatchEntry))
    (hd : patches_at_node_pair pats = some d) (k : ℕ × ℕ) :
    (regsAt (patchPairEvents pats) k).length ≤ 2 ∧
      alookup d k = pairAcc (regsAt (patchPairEvents pats) k) := by
  have hinit : PairInv [] [] := by
    intro k
    simp [regsAt, alookup, pairAcc]
  have := pairInv_run (patchPairEvents pats) [] [] d hinit hd
  simpa using this k

/-! ## The face loop of `setup_faces` and the structural part of
`setup_cells` -/

/-- Option-valued map, recording the first failure (`None` models the
first exception escaping the loop). -/
def optMapList {α β : Type} (f : α → Option β) : List α → Option (List β)
  | [] => some []
  | a :: rest =>
    match f a, optMapList f rest with
    | some b, some bs => some (b :: bs)
    | _, _ => none

theorem optMapList_spec {α β : Type} (f : α → Option β) (l : List α) (bs : List β)
    (h : optMapList f l = some bs) :
    bs.length = l.length ∧ ∀ i : ℕ, bs[i]? = (l[i]?).bind f := by
  induction l generalizing bs with
  | nil =>
    simp only [optMapList, Option.some_inj] at h
    subst h
    exact ⟨rfl, by intro i; simp⟩
  | cons a rest ih =>
    simp only [optMapList] at h
    cases hf : f a with
    | none => rw [hf] at h; exact absurd h (by simp)
    | some b =>
      rw [hf] at h
      cases hr : optMapList f rest with
      | none => rw [hr] at h; exact absurd h (by simp)
      | some brest =>
        rw [hr] at h
        obtain rfl := Option.some_inj.mp h
        obtain ⟨hlen, hget⟩ := ih brest hr
        refine ⟨by simpa using hlen, ?_⟩
        intro i
        cases i with
        | zero => simpa using hf.symm
        | succ j => simpa using hget j

/-- Corner pair of one face: look the face's endpoint pair up in the
dictionary and unpack it.  Unpacking a single-patch entry is the Python
`TypeError` from `cnr0, cnr1 = <int>`; a missing key is a `KeyError`. -/
def faceCorners (d : List ((ℕ × ℕ) × PatchEntry)) (nal : List (ℕ × ℕ)) (face : ℕ) :
    Option (ℕ × ℕ) :=
  match nal[face]? with
  | none => none
  | some ln =>
    match alookup d (min ln.1 ln.2, max ln.1 ln.2) with
    | some (PatchEntry.two p q) => some (p, q)
    | _ => none

/-- The `corners_at_face` table: the second loop of `setup_faces`. -/
def setup_faces_table (d : List ((ℕ × ℕ) × PatchEntry)) (nal : List (ℕ × ℕ))
    (nfaces : ℕ) : Option (List (ℕ × ℕ)) :=
  optMapList (faceCorners d nal) (List.range nfaces)

/-- Scalar-index validity for `coords_of_corner[c]`: numpy accepts
`-ncorners ≤ c < ncorners`, wrapping negative indices. -/
def wrapOK (ncorners : ℕ) (c : ℤ) : Bool :=
  decide ((0 ≤ c ∧ c < (ncorners : ℤ)) ∨ (-(ncorners : ℤ) ≤ c ∧ c < 0))

/-- The corner lookups `corners_at_node[cell][0]` and `[1]` performed by
`setup_cells` must be valid numpy indices; checked here at build time so
that `buildStruct` fails exactly when `setup_cells` would raise.  (The
angular sort permutes only the valid prefix of each row, so validity of
slots 0 and 1 is the same before and after sorting.) -/
def cellsCheck (ctbl : List (List ℤ)) (ncorners : ℕ) : Bool :=
  ctbl.all (fun row => wrapOK ncorners (row.getD 0 0) && wrapOK ncorners (row.getD 1 0))

/-! ## The mesh record and the structural construction -/

/-- The structural tables of `DualIcosphereGraph` (everything except
real-valued coordinates, lengths, angles and areas). -/
structure PreMesh where
  number_of_nodes : ℕ
  coords_of_node : List Vec3
  number_of_links : ℕ
  nodes_at_link : List (ℕ × ℕ)
  links_at_node : List (List ℤ)
  link_dirs_at_node : List (List ℤ)
  number_of_patches : ℕ
  number_of_corners : ℕ
  nodes_at_patch : List Tri
  corners_at_node : List (List ℤ)
  number_of_faces : ℕ
  corners_at_face : List (ℕ × ℕ)
  number_of_cells : ℕ
  deriving DecidableEq

/-- The two incidence writes of each link in the second `setup_links`
loop: link `i` is written at the tail node with direction `-1`, then at
the head node with direction `+1`. -/
def incEvents (reg : List (ℕ × (ℕ × ℕ))) : List (ℕ × ℤ × ℤ) :=
  (reg.enum.map (fun p => [(p.2.2.1, ((p.1 : ℤ), -1)), (p.2.2.2, ((p.1 : ℤ), 1))])).flatten

/-- The three corner writes of each patch in `setup_patches_and_corners`
(the direction component is unused there and written as `0`). -/
def cornerEvents (pats : List Tri) : List (ℕ × ℤ × ℤ) :=
  (pats.enum.map (fun p =>
    [(p.2.1, ((p.1 : ℤ), 0)), (p.2.2.1, ((p.1 : ℤ), 0)), (p.2.2.2, ((p.1 : ℤ), 0))])).flatten

/-- Structural construction: `setup_nodes`, `setup_links`,
`setup_patches_and_corners` (table part), `setup_faces` (table part) and
the index checks of `setup_cells`, in source order.  `none` models an
exception escaping `__init__`.  The `nodes_at_link` array is preallocated
with `int(1.5 * len(ico_faces))` rows and written consecutively from row
0, which is the closed form used here; exceeding the preallocation is the
same `IndexError`-failure as in the source's interleaved loop. -/
def buildStruct (vertices : List Vec3) (ico_faces : List Tri) : Option PreMesh :=
  let n := vertices.length
  let reg := linkRegistry ico_faces
  let cap := 3 * ico_faces.length / 2
  if reg.length ≤ cap then
    let nal := (reg.map (fun e => e.2)) ++ List.replicate (cap - reg.length) (0, 0)
    (fillRun (initFill n) (incEvents reg)).bind (fun ft =>
    (fillRun (initFill n) (cornerEvents ico_faces)).bind (fun cf =>
    (patches_at_node_pair ico_faces).bind (fun d =>
    (setup_faces_table d nal reg.length).bind (fun caf =>
    if cellsCheck cf.tbl ico_faces.length then
      some
        { number_of_nodes := n
          coords_of_node := vertices
          number_of_links := reg.length
          nodes_at_link := nal
          links_at_node := ft.tbl
          link_dirs_at_node := ft.dirs
          number_of_patches := ico_faces.length
          number_of_corners := ico_faces.length
          nodes_at_patch := ico_faces
          corners_at_node := cf.tbl
          number_of_faces := reg.length
          corners_at_face := caf
          number_of_cells := n }
    else none))))
  else none

/-- Lazily created `cell_at_node` property: `np.arange(number_of_nodes)`. -/
def cell_at_node (m : PreMesh) : List ℕ := List.range m.number_of_nodes

/-- `node_at_cell` returns `cell_at_node` itself. -/
def node_at_cell (m : PreMesh) : List ℕ := cell_at_node m

/-- Lazily created `face_at_link` property: `np.arange(number_of_links)`. -/
def face_at_link (m : PreMesh) : List ℕ := List.range m.number_of_links

/-- `link_at_face` returns `face_at_link` itself. -/
def link_at_face (m : PreMesh) : List ℕ := face_at_link m

/-- Destructuring of a successful structural construction into its
builder stages. -/
theorem buildStruct_spec (vertices : List Vec3) (ico_faces : List Tri) (m : PreMesh)
    (hm : buildStruct vertices ico_faces = some m) :
    ∃ ft cf d,
      fillRun (initFill vertices.length) (incEvents (linkRegistry ico_faces)) = some ft ∧
      fillRun (initFill vertices.length) (cornerEvents ico_faces) = some cf ∧
      patches_at_node_pair ico_faces = some d ∧
      setup_faces_table d m.nodes_at_link (linkRegistry ico_faces).length =
        some m.corners_at_face ∧
      (linkRegistry ico_faces).length ≤ 3 * ico_faces.length / 2 ∧
      cellsCheck cf.tbl ico_faces.length = true ∧
      m.number_of_nodes = vertices.length ∧
      m.coords_of_node = vertices ∧
      m.number_of_links = (linkRegistry ico_faces).length ∧
      m.nodes_at_link = (linkRegistry ico_faces).map (fun e => e.2) ++
        List.replicate (3 * ico_faces.length / 2 - (linkRegistry ico_faces).length) (0, 0) ∧
      m.links_at_node = ft.tbl ∧
      m.link_dirs_at_node = ft.dirs ∧
      m.number_of_patches = ico_faces.length ∧
      m.number_of_corners = ico_faces.length ∧
      m.nodes_at_patch = ico_faces ∧
      m.corners_at_node = cf.tbl ∧
      m.number_of_faces = (linkRegistry ico_faces).length ∧
      m.number_of_cells = vertices.length := by
  simp only [buildStruct] at hm
  by_cases hcap : (linkRegistry ico_faces).length ≤ 3 * ico_faces.length / 2
  · rw [if_pos hcap] at hm
    cases hft : fillRun (initFill vertices.length) (incEvents (linkRegistry ico_faces)) with
    | none => rw [hft] at hm; exact absurd hm (by simp)
    | some ft =>
      rw [hft] at hm
      simp only [Option.some_bind] at hm
      cases hcf : fillRun (initFill vertices.length) (cornerEvents ico_faces) with
      | none => rw [hcf] at hm; exact absurd hm (by simp)
      | some cf =>
        rw [hcf] at hm
        simp only [Option.some_bind] at hm
        cases hd : patches_at_node_pair ico_faces with
        | none => rw [hd] at hm; exact absurd hm (by simp)
        | some d =>
          rw [hd] at hm
          simp only [Option.some_bind] at hm
          cases hcaf : setup_faces_table d
              ((linkRegistry ico_faces).map (fun e => e.2) ++
                List.replicate
                  (3 * ico_faces.length / 2 - (linkRegistry ico_faces).length) (0, 0))
              (linkRegistry ico_faces).length with
          | none => rw [hcaf] at hm; exact absurd hm (by simp)
          | some caf =>
            rw [hcaf] at hm
            simp only [Option.some_bind] at hm
            by_cases hcells : cellsCheck cf.tbl ico_faces.length = true
            · rw [if_pos hcells] at hm
              obtain rfl := (Option.some_inj.mp hm).symm
              exact ⟨ft, cf, d, rfl, rfl, rfl, hcaf, hcap, hcells, rfl, rfl, rfl, rfl,
                rfl, rfl, rfl, rfl, rfl, rfl, rfl, rfl⟩
            · rw [if_neg hcells] at hm
              exact absurd hm (by simp)
  · rw [if_neg hcap] at hm
    exact absurd hm (by simp)

/-! ## Corner coordinates (`set_coords_of_corner`) -/

/-- Corner coordinates of one patch, exactly as `set_coords_of_corner`
computes them: the cross product of two triangle sides, rescaled
componentwise by `radius / veclen`.  The node lookups use a default only
for out-of-range indices, which cannot occur in a successfully built mesh
(the corner fill has already bounds-checked every patch node). -/
noncomputable def coords_of_corner_fun (coordsN : List Vec3) (pats : List Tri) (radius : ℝ)
    (p : ℕ) : RV3 :=
  match pats[p]? with
  | none => (0, 0, 0)
  | some t =>
    let p0 := toRV (coordsN.getD t.1 (0, 0, 0))
    let p1 := toRV (coordsN.getD t.2.1 (0, 0, 0))
    let p2 := toRV (coordsN.getD t.2.2 (0, 0, 0))
    let c := cross3 (sub3 p1 p0) (sub3 p2 p0)
    scale3 (radius / norm3 c) c

/-- The formula stated by the spec for the corner position:
`radius * normalize(cross(p1 - p0, p2 - p0))`. -/
noncomputable def specCornerFormula (coordsN : List Vec3) (pats : List Tri) (radius : ℝ)
    (p : ℕ) : RV3 :=
  match pats[p]? with
  | none => (0, 0, 0)
  | some t =>
    let p0 := toRV (coordsN.getD t.1 (0, 0, 0))
    let p1 := toRV (coordsN.getD t.2.1 (0, 0, 0))
    let p2 := toRV (coordsN.getD t.2.2 (0, 0, 0))
    let c := cross3 (sub3 p1 p0) (sub3 p2 p0)
    scale3 radius (scale3 (norm3 c)⁻¹ c)

/-! ## The angular sort (`sort_corners_ccw`) -/

/-- Number of valid (non-sentinel) entries of a corner row:
`np.count_nonzero(row + 1)`. -/
def countValid (row : List ℤ) : ℕ := (row.filter (fun c => c + 1 ≠ 0)).length

/-- Normalisation of an `atan2` angle into `[0, 2*pi)`:
`ang[ang < 0.0] += 2 * np.pi`. -/
noncomputable def normAngle (a : ℝ) : ℝ := if a < 0 then a + 2 * Real.pi else a

/-- The local-frame angle of corner `c` as seen from `node`: rotate the
corner's Cartesian position by the negative azimuth and then the negative
polar angle of the node, take `atan2(y, x)` in the rotated frame, and
normalise into `[0, 2*pi)`. -/
noncomputable def localAngle (coordsN : List Vec3) (pats : List Tri) (radius : ℝ)
    (node : ℕ) (c : ℤ) : ℝ :=
  let nv := toRV (coordsN.getD node (0, 0, 0))
  let sph := cartesian_to_spherical nv.1 nv.2.1 nv.2.2
  let cc := coords_of_corner_fun coordsN pats radius c.toNat
  let rc := rotate_zy cc.1 cc.2.1 cc.2.2 (-sph.2.1) (-sph.2.2)
  normAngle (atan2 rc.2.1 rc.1)

/-- Sort the valid prefix of one corner row by ascending angle (stable;
`np.argsort` on the angles followed by `row[:nc] = row[idx]`), leaving the
sentinel suffix in place. -/
noncomputable def sortRow (ang : ℤ → ℝ) (row : List ℤ) : List ℤ :=
  (row.take (countValid row)).insertionSort (fun a b => ang a ≤ ang b) ++
    row.drop (countValid row)

/-- `sort_corners_ccw`: apply the per-node angular sort to every node's
corner row.  (The source loop updates `corners_at_node` in place, but each
iteration reads only its own row, so it equals this rowwise map.) -/
noncomputable def sort_corners_ccw (m : PreMesh) (radius : ℝ) : PreMesh :=
  { m with corners_at_node :=
      m.corners_at_node.enum.map (fun p =>
        sortRow (localAngle m.coords_of_node m.nodes_at_patch radius p.1) p.2) }

/-! ## Metric quantities -/

/-- Length of link `i`:
`radius * arc_length(coords_of_node[tail], coords_of_node[head], radius)`. -/
noncomputable def length_of_link_fun (m : PreMesh) (radius : ℝ) (i : ℕ) : ℝ :=
  match m.nodes_at_link[i]? with
  | some ln => radius * arc_length (toRV (m.coords_of_node.getD ln.1 (0, 0, 0)))
      (toRV (m.coords_of_node.getD ln.2 (0, 0, 0))) radius
  | none => 0

/-- Length of face `i`:
`radius * arc_length(coords_of_corner[cnr0], coords_of_corner[cnr1], radius)`. -/
noncomputable def length_of_face_fun (m : PreMesh) (radius : ℝ) (face : ℕ) : ℝ :=
  match m.corners_at_face[face]? with
  | some cp => radius * arc_length
      (coords_of_corner_fun m.coords_of_node m.nodes_at_patch radius cp.1)
      (coords_of_corner_fun m.coords_of_node m.nodes_at_patch radius cp.2) radius
  | none => 0

/-- `np.amin` of a row (rows are always the nonempty capacity-6 rows). -/
def rowMin : List ℤ → ℤ
  | [] => 0
  | h :: t => t.foldl min h

/-- Numpy scalar indexing with negative-index wrapping, for the
`coords_of_corner[corners_at_node[cell][j]]` lookups of `setup_cells`. -/
def wrapIdx (n : ℕ) (c : ℤ) : ℕ := if 0 ≤ c then c.toNat else n - (-c).toNat

/-- Cell area as computed by `setup_cells` on the (sorted) mesh:
`ntri * area_of_sphertri(p0, p1, p2, radius)` with
`ntri = 5 + int(np.amin(corners_at_node[cell]) > -1)`. -/
noncomputable def area_of_cell_fun (m : PreMesh) (radius : ℝ) (cell : ℕ) : ℝ :=
  let row := m.corners_at_node.getD cell []
  let c0 := row.getD 0 0
  let c1 := row.getD 1 0
  let p0 := toRV (m.coords_of_node.getD cell (0, 0, 0))
  let p1 := coords_of_corner_fun m.coords_of_node m.nodes_at_patch radius
    (wrapIdx m.number_of_corners c0)
  let p2 := coords_of_corner_fun m.coords_of_node m.nodes_at_patch radius
    (wrapIdx m.number_of_corners c1)
  let ntri : ℝ := 5 + (if rowMin row > -1 then 1 else 0)
  ntri * area_of_sphertri p0 p1 p2 radius

/-! ## Lazily computed properties

`r_of_node`, `phi_of_node` and `theta_of_node` are `try/except
AttributeError` properties caching the result of
`_setup_node_spherical_coords`; the attribute-presence cache is modelled
as an `Option`-valued cache field.  `area_of_patch` is the same pattern,
but its recompute path executes `self._calc_area_of_patch(self)` — a
bound method called with a second positional argument, a `TypeError`; and
even the stub body itself is `pass`, which would leave `_area_of_patch`
unset.  The recompute path therefore never produces a value: `none`. -/

/-- A mesh together with its lazy-property caches. -/
structure MeshState where
  mesh : PreMesh
  cacheSph : Option (List ℝ × List ℝ × List ℝ)
  cacheAreaOfPatch : Option (List ℝ)

/-- `_setup_node_spherical_coords`: `cartesian_to_spherical` mapped over
the node coordinate columns, giving `(_r_of_node, _phi_of_node,
_theta_of_node)`. -/
noncomputable def node_spherical_coords (coordsN : List Vec3) :
    List ℝ × List ℝ × List ℝ :=
  (coordsN.map (fun v => (cartesian_to_spherical (toRV v).1 (toRV v).2.1 (toRV v).2.2).1),
    coordsN.map (fun v => (cartesian_to_spherical (toRV v).1 (toRV v).2.1 (toRV v).2.2).2.1),
    coordsN.map (fun v => (cartesian_to_spherical (toRV v).1 (toRV v).2.1 (toRV v).2.2).2.2))

/-- The `r_of_node` property: return the cache if present, otherwise
compute all three spherical-coordinate arrays, cache them, and return. -/
noncomputable def r_of_node_access (s : MeshState) : List ℝ × MeshState :=
  match s.cacheSph with
  | some v => (v.1, s)
  | none =>
    let v := node_spherical_coords s.mesh.coords_of_node
    (v.1, { s with cacheSph := some v })

/-- The `phi_of_node` property. -/
noncomputable def phi_of_node_access (s : MeshState) : List ℝ × MeshState :=
  match s.cacheSph with
  | some v => (v.2.1, s)
  | none =>
    let v := node_spherical_coords s.mesh.coords_of_node
    (v.2.1, { s with cacheSph := some v })

/-- The `theta_of_node` property. -/
noncomputable def theta_of_node_access (s : MeshState) : List ℝ × MeshState :=
  match s.cacheSph with
  | some v => (v.2.2, s)
  | none =>
    let v := node_spherical_coords s.mesh.coords_of_node
    (v.2.2, { s with cacheSph := some v })

/-- The `area_of_patch` property.  With an empty cache its recompute path
raises (`self._calc_area_of_patch(self)` passes `self` twice; the stub
body is `pass` and computes nothing), so no value is ever produced. -/
def area_of_patch_access (s : MeshState) : Option (List ℝ × MeshState) :=
  match s.cacheAreaOfPatch with
  | some v => some (v, s)
  | none => none

/-- The cache state right after `__init__`: `sort_corners_ccw` reads the
`phi_of_node`/`theta_of_node` properties, so construction itself populates
the spherical-coordinate cache; nothing ever assigns `_area_of_patch`. -/
noncomputable def constructedState (m : PreMesh) (radius : ℝ) : MeshState :=
  { mesh := sort_corners_ccw m radius
    cacheSph := some (node_spherical_coords m.coords_of_node)
    cacheAreaOfPatch := none }

/-! ## Concrete inputs used by witnesses and counterexamples

A regular tetrahedron: the smallest closed triangulation (every edge lies
in exactly two triangles, every vertex has degree 3), well within the
capacity-6 tables. -/

/-- Vertices of a regular tetrahedron. -/
def tetraVerts : List Vec3 := [(1, 1, 1), (1, -1, -1), (-1, 1, -1), (-1, -1, 1)]

/-- Outward-oriented faces of the tetrahedron. -/
def tetraFaces : List Tri := [(0, 1, 2), (0, 3, 1), (0, 2, 3), (1, 3, 2)]

/-- A malformed input: both triangles repeat vertex 0. -/
def degenVerts : List Vec3 := [(1, 0, 0), (0, 1, 0), (0, 0, 1)]

/-- The degenerate triangle list fed to the builder. -/
def degenFaces : List Tri := [(0, 0, 1), (0, 0, 2)]

/-! ## Claim C7 -/

/-- C7 (counterexample): the claim states that every malformed input — in
particular a degenerate triangle with a repeated vertex — makes mesh
construction fail fast with an input-validation error, with no partial
mesh returned.  The concrete input `degenFaces`, whose two triangles both
repeat vertex 0, is accepted: construction runs to completion and returns
a mesh, so the claim is false. -/
theorem degenerate_input_not_rejected :
    (buildStruct degenVerts degenFaces).isSome = true := by decide

/-- C7 (amended): the builders perform no input validation; a triangle
list containing degenerate triangles with a repeated vertex can be
processed to completion, returning a mesh that contains a self-loop link
(both endpoints equal), here link 0 with endpoints `(0, 0)` among three
links. -/
theorem degenerate_input_builds_self_loop :
    (buildStruct degenVerts degenFaces).map
      (fun m => (m.nodes_at_link[0]?, m.number_of_links)) = some (some (0, 0), 3) := by
  decide

/-! ## Claim C6 -/

/-- C6: for every successfully constructed mesh, the dual complex shares
index space with the primal complex: `number_of_faces = number_of_links`,
`number_of_cells = number_of_nodes`, `number_of_corners =
number_of_patches`, and `cell_at_node`, `node_at_cell`, `face_at_link`,
`link_at_face` are the identity on their index ranges. -/
theorem dual_complex_shares_index_space (vertices : List Vec3) (ico_faces : List Tri)
    (m : PreMesh) (hm : buildStruct vertices ico_faces = some m) :
    m.number_of_faces = m.number_of_links ∧
    m.number_of_cells = m.number_of_nodes ∧
    m.number_of_corners = m.number_of_patches ∧
    (∀ i, i < m.number_of_nodes → (cell_at_node m)[i]? = some i) ∧
    node_at_cell m = cell_at_node m ∧
    (∀ j, j < m.number_of_links → (face_at_link m)[j]? = some j) ∧
    link_at_face m = face_at_link m := by
  obtain ⟨ft, cf, d, hft, hcf, hd, hcaf, hcap, hcells, hN, hcoords, hL, hnal, hlan,
    hldan, hNp, hNc, hpatch, hcan, hNf, hNcells⟩ := buildStruct_spec vertices ico_faces m hm
  refine ⟨by rw [hNf, hL], by rw [hNcells, hN], by rw [hNc, hNp], ?_, rfl, ?_, rfl⟩
  · intro i hi
    simp [cell_at_node, List.getElem?_range hi]
  · intro j hj
    simp [face_at_link, List.getElem?_range hj]

/-- C6 (witness): the tetrahedron mesh instantiates the theorem. -/
theorem dual_complex_shares_index_space_witness :
    ∃ m, buildStruct tetraVerts tetraFaces = some m ∧
      m.number_of_faces = m.number_of_links ∧
      m.number_of_cells = m.number_of_nodes ∧
      m.number_of_corners = m.number_of_patches := by
  have h : (buildStruct tetraVerts tetraFaces).isSome = true := by decide
  refine ⟨(buildStruct tetraVerts tetraFaces).get h, (Option.some_get h).symm, ?_⟩
  have hc := dual_complex_shares_index_space tetraVerts tetraFaces
    ((buildStruct tetraVerts tetraFaces).get h) (Option.some_get h).symm
  exact ⟨hc.1, hc.2.1, hc.2.2.1⟩

/-! ## Claim C3 -/

/-- Every registry entry's key is the packed key of its stored pair. -/
theorem linkRegistry_entry_key (ico_faces : List Tri) (k : ℕ) (v : ℕ × ℕ)
    (hmem : (k, v) ∈ linkRegistry ico_faces) : k = packKey v.1 v.2 := by
  rw [linkRegistry_eq_dedup] at hmem
  suffices h : ∀ (es : List (ℕ × ℕ)) (acc : List (ℕ × (ℕ × ℕ))),
      (∀ k2 v2, (k2, v2) ∈ acc → k2 = packKey v2.1 v2.2) →
      (k, v) ∈ es.foldl dedupStep acc → k = packKey v.1 v.2 by
    exact h _ [] (by simp) hmem
  intro es
  induction es with
  | nil =>
    intro acc hacc hmem2
    exact hacc k v hmem2
  | cons e rest ih =>
    intro acc hacc hmem2
    rw [List.foldl_cons] at hmem2
    refine ih (dedupStep acc e) ?_ hmem2
    intro k2 v2 hmem3
    unfold dedupStep add_link at hmem3
    by_cases hin : (alookup acc (packKey e.1 e.2)).isSome
    · rw [if_pos hin] at hmem3
      exact hacc k2 v2 hmem3
    · rw [if_neg hin] at hmem3
      rcases List.mem_append.mp hmem3 with h | h
      · exact hacc k2 v2 h
      · simp only [List.mem_singleton, Prod.mk.injEq] at h
        rw [h.1, h.2]

/-- Bounded triangles give bounded edge events. -/
theorem edgeEvents_bounded (ico_faces : List Tri)
    (hbound : ∀ t ∈ ico_faces, t.1 < 2 ^ 32 ∧ t.2.1 < 2 ^ 32 ∧ t.2.2 < 2 ^ 32) :
    ∀ e ∈ edgeEvents ico_faces, e.1 < 2 ^ 32 ∧ e.2 < 2 ^ 32 := by
  intro e he
  simp only [edgeEvents, List.mem_flatten, List.mem_map] at he
  obtain ⟨l, ⟨t, ht, rfl⟩, hel⟩ := he
  obtain ⟨h1, h2, h3⟩ := hbound t ht
  simp only [triEdges, List.mem_cons, List.mem_singleton, List.not_mem_nil, or_false] at hel
  rcases hel with rfl | rfl | rfl <;> exact ⟨by omega, by omega⟩

/-- A `firstWith` result is an edge event carrying the key. -/
theorem firstWith_mem (es : List (ℕ × ℕ)) (k : ℕ) (v : ℕ × ℕ)
    (h : firstWith es k = some v) : v ∈ es ∧ packKey v.1 v.2 = k := by
  refine ⟨List.mem_of_find?_eq_some h, ?_⟩
  have := List.find?_some h
  simpa using this

/-- Indexed access into `nodes_at_link` below `number_of_links` returns
the registry entry's oriented pair. -/
theorem nodes_at_link_access (vertices : List Vec3) (ico_faces : List Tri) (m : PreMesh)
    (hm : buildStruct vertices ico_faces = some m) (i : ℕ) (hi : i < m.number_of_links) :
    ∃ en, (linkRegistry ico_faces)[i]? = some en ∧ m.nodes_at_link[i]? = some en.2 := by
  obtain ⟨ft, cf, d, hft, hcf, hd, hcaf, hcap, hcells, hN, hcoords, hL, hnal, hlan,
    hldan, hNp, hNc, hpatch, hcan, hNf, hNcells⟩ := buildStruct_spec vertices ico_faces m hm
  rw [hL] at hi
  have hen : (linkRegistry ico_faces)[i]? = some ((linkRegistry ico_faces).get ⟨i, hi⟩) := by
    rw [List.getElem?_eq_getElem hi]
    rfl
  refine ⟨_, hen, ?_⟩
  rw [hnal]
  rw [List.getElem?_append_left (by simpa using hi), List.getElem?_map, hen]
  rfl

/-- C3: for every input triangle list (with vertex indices below the
`2^32` packing bound) and successfully built mesh, `setup_links` creates
exactly one link per unordered node pair co-occurring in some triangle:
distinct nodes `a`, `b` share a triangle iff there is a unique link index
whose endpoint pair is `{a, b}`; each link's `(tail, head)` orientation is
the first `add_link` edge event seen with its key; and each link's length
is `radius * arc_length` of its endpoint coordinates. -/
theorem setup_links_one_link_per_pair (vertices : List Vec3) (ico_faces : List Tri)
    (m : PreMesh) (radius : ℝ) (hm : buildStruct vertices ico_faces = some m)
    (hbound : ∀ t ∈ ico_faces, t.1 < 2 ^ 32 ∧ t.2.1 < 2 ^ 32 ∧ t.2.2 < 2 ^ 32) :
    (∀ a b, a ≠ b →
      ((∃ t ∈ ico_faces,
          (a = t.1 ∨ a = t.2.1 ∨ a = t.2.2) ∧ (b = t.1 ∨ b = t.2.1 ∨ b = t.2.2)) ↔
        (∃! i, i < m.number_of_links ∧ ∃ ln, m.nodes_at_link[i]? = some ln ∧
          min ln.1 ln.2 = min a b ∧ max ln.1 ln.2 = max a b))) ∧
    (∀ i ln, i < m.number_of_links → m.nodes_at_link[i]? = some ln →
      firstWith (edgeEvents ico_faces) (packKey ln.1 ln.2) = some ln) ∧
    (∀ i, i < m.number_of_links →
      ∃ ln, m.nodes_at_link[i]? = some ln ∧
        length_of_link_fun m radius i = radius * arc_length
          (toRV (m.coords_of_node.getD ln.1 (0, 0, 0)))
          (toRV (m.coords_of_node.getD ln.2 (0, 0, 0))) radius) := by
  have hLlen : m.number_of_links = (linkRegistry ico_faces).length := by
    obtain ⟨ft, cf, d, hft, hcf, hd, hcaf, hcap, hcells, hN, hcoords, hL, hnal, hlan,
      hldan, hNp, hNc, hpatch, hcan, hNf, hNcells⟩ := buildStruct_spec vertices ico_faces m hm
    exact hL
  have hvalue : ∀ i ln, i < m.number_of_links → m.nodes_at_link[i]? = some ln →
      firstWith (edgeEvents ico_faces) (packKey ln.1 ln.2) = some ln := by
    intro i ln hi hln
    obtain ⟨en, hen, hen2⟩ := nodes_at_link_access vertices ico_faces m hm i hi
    rw [hen2] at hln
    obtain rfl := Option.some_inj.mp hln
    have hmem : en ∈ linkRegistry ico_faces := List.mem_iff_getElem?.mpr ⟨i, hen⟩
    have hkey : en.1 = packKey en.2.1 en.2.2 := linkRegistry_entry_key ico_faces en.1 en.2 hmem
    rw [← hkey]
    exact linkRegistry_value_first ico_faces en.1 en.2 hmem
  have hentry_min : ∀ (i : ℕ) (en : ℕ × (ℕ × ℕ)), (linkRegistry ico_faces)[i]? = some en →
      en.2 ∈ edgeEvents ico_faces ∧ en.1 = packKey en.2.1 en.2.2 := by
    intro i en hen
    have hmem : en ∈ linkRegistry ico_faces := List.mem_iff_getElem?.mpr ⟨i, hen⟩
    have hkey : en.1 = packKey en.2.1 en.2.2 :=
      linkRegistry_entry_key ico_faces en.1 en.2 hmem
    have hfirst := linkRegistry_value_first ico_faces en.1 en.2 hmem
    exact ⟨(firstWith_mem _ _ _ hfirst).1, hkey⟩
  refine ⟨?_, hvalue, ?_⟩
  · intro a b hab
    constructor
    · rintro ⟨t, ht, hmention⟩
      have habound : a < 2 ^ 32 ∧ b < 2 ^ 32 := by
        obtain ⟨h1, h2, h3⟩ := hbound t ht
        obtain ⟨ha, hb⟩ := hmention
        constructor
        · rcases ha with rfl | rfl | rfl <;> omega
        · rcases hb with rfl | rfl | rfl <;> omega
      obtain ⟨e, he, hemin, hemax⟩ := (mentionsBoth_iff_triEdge t a b hab).mp hmention
      have hekey : packKey e.1 e.2 = packKey a b := by
        unfold packKey
        rw [hemin, hemax]
      have hevmem : e ∈ edgeEvents ico_faces := by
        simp only [edgeEvents, List.mem_flatten, List.mem_map]
        exact ⟨triEdges t, ⟨t, ht, rfl⟩, he⟩
      have hkeymem : packKey a b ∈ (linkRegistry ico_faces).map Prod.fst :=
        (linkRegistry_mem_key_iff ico_faces (packKey a b)).mpr ⟨e, hevmem, hekey⟩
      obtain ⟨i, hkget⟩ := List.mem_iff_getElem?.mp hkeymem
      rw [List.getElem?_map] at hkget
      obtain ⟨en, hen, henkey⟩ := Option.map_eq_some'.mp hkget
      have hilt : i < (linkRegistry ico_faces).length := by
        by_contra hge
        rw [List.getElem?_eq_none_iff.mpr (by omega)] at hen
        simp at hen
      obtain ⟨hev2, hkey2⟩ := hentry_min i en hen
      have hb2 : en.2.1 < 2 ^ 32 ∧ en.2.2 < 2 ^ 32 :=
        edgeEvents_bounded ico_faces hbound en.2 hev2
      have hinj := packKey_inj en.2.1 en.2.2 a b (by omega)
        (by omega) (by rw [← hkey2, henkey])
      refine ⟨i, ⟨by rw [hLlen]; exact hilt, en.2, ?_, hinj.1, hinj.2⟩, ?_⟩
      · obtain ⟨en2, hen2, hen2v⟩ := nodes_at_link_access vertices ico_faces m hm i
          (by rw [hLlen]; exact hilt)
        rw [hen] at hen2
        obtain rfl := Option.some_inj.mp hen2
        exact hen2v
      · rintro j ⟨hj, lnj, hlnj, hjmin, hjmax⟩
        obtain ⟨enj, henj, henjv⟩ := nodes_at_link_access vertices ico_faces m hm j hj
        rw [henjv] at hlnj
        obtain rfl := Option.some_inj.mp hlnj
        obtain ⟨hevj, hkeyj⟩ := hentry_min j enj henj
        have hjkey : enj.1 = packKey a b := by
          rw [hkeyj]
          unfold packKey
          rw [hjmin, hjmax]
        have hmapi : ((linkRegistry ico_faces).map Prod.fst)[i]? = some (packKey a b) := by
          rw [List.getElem?_map, hen]
          simpa using henkey
        have hmapj : ((linkRegistry ico_faces).map Prod.fst)[j]? = some (packKey a b) := by
          rw [List.getElem?_map, henj]
          simpa using hjkey
        refine List.getElem?_inj (by simpa using (by rw [hLlen] at hj; exact hj))
          (linkRegistry_keys_nodup ico_faces) ?_
        rw [hmapj, hmapi]
    · rintro ⟨i, ⟨hi, ln, hln, hmin, hmax⟩, _⟩
      obtain ⟨en, hen, henv⟩ := nodes_at_link_access vertices ico_faces m hm i hi
      rw [henv] at hln
      obtain rfl := Option.some_inj.mp hln
      obtain ⟨hev, _⟩ := hentry_min i en hen
      simp only [edgeEvents, List.mem_flatten, List.mem_map] at hev
      obtain ⟨l, ⟨t, ht, rfl⟩, hel⟩ := hev
      refine ⟨t, ht, (mentionsBoth_iff_triEdge t a b hab).mpr ⟨en.2, hel, hmin, hmax⟩⟩
  · intro i hi
    obtain ⟨en, hen, hen2⟩ := nodes_at_link_access vertices ico_faces m hm i hi
    refine ⟨en.2, hen2, ?_⟩
    simp only [length_of_link_fun, hen2]

/-- C3 (witness): on the tetrahedron, nodes 0 and 1 co-occur in triangle
`(0, 1, 2)` and therefore have exactly one link. -/
theorem setup_links_one_link_per_pair_witness :
    ∃ m, buildStruct tetraVerts tetraFaces = some m ∧
      (∃! i, i < m.number_of_links ∧ ∃ ln, m.nodes_at_link[i]? = some ln ∧
        min ln.1 ln.2 = min 0 1 ∧ max ln.1 ln.2 = max 0 1) := by
  have h : (buildStruct tetraVerts tetraFaces).isSome = true := by decide
  refine ⟨(buildStruct tetraVerts tetraFaces).get h, (Option.some_get h).symm, ?_⟩
  have hc := setup_links_one_link_per_pair tetraVerts tetraFaces
    ((buildStruct tetraVerts tetraFaces).get h) 1 (Option.some_get h).symm (by decide)
  exact (hc.1 0 1 (by decide)).mp ⟨(0, 1, 2), by decide, by decide⟩

/-! ## Claims C4 and C10 -/

/-- The (link index, direction sign) incidence writes destined for one
node, in write order. -/
def nodeIncidences (reg : List (ℕ × (ℕ × ℕ))) (nd : ℕ) : List (ℤ × ℤ) :=
  rowOf (incEvents reg) nd

/-- Degree of a node: its number of link-endpoint occurrences (a
self-loop link counts twice, as it is written twice). -/
def nodeDegree (reg : List (ℕ × (ℕ × ℕ))) (nd : ℕ) : ℕ :=
  (nodeIncidences reg nd).length

theorem incEvents_mem (reg : List (ℕ × (ℕ × ℕ))) (e : ℕ × ℤ × ℤ)
    (he : e ∈ incEvents reg) :
    ∃ (i : ℕ) (en : ℕ × (ℕ × ℕ)), reg[i]? = some en ∧
      (e = (en.2.1, ((i : ℤ), -1)) ∨ e = (en.2.2, ((i : ℤ), 1))) := by
  simp only [incEvents, List.mem_flatten, List.mem_map] at he
  obtain ⟨l, ⟨p, hp, rfl⟩, hel⟩ := he
  obtain ⟨i, en⟩ := p
  have hpe : reg[i]? = some en := List.mk_mem_enum_iff_getElem?.mp hp
  simp only [List.mem_cons, List.mem_singleton, List.not_mem_nil, or_false] at hel
  exact ⟨i, en, hpe, hel⟩

theorem incEvents_of_entry (reg : List (ℕ × (ℕ × ℕ))) (i : ℕ) (en : ℕ × (ℕ × ℕ))
    (hen : reg[i]? = some en) :
    (en.2.1, ((i : ℤ), -1)) ∈ incEvents reg ∧ (en.2.2, ((i : ℤ), 1)) ∈ incEvents reg := by
  constructor <;>
  · simp only [incEvents, List.mem_flatten, List.mem_map]
    exact ⟨[(en.2.1, ((i : ℤ), -1)), (en.2.2, ((i : ℤ), 1))],
      ⟨(i, en), List.mk_mem_enum_iff_getElem?.mpr hen, rfl⟩, by simp⟩

theorem rowOf_mem (es : List (ℕ × ℤ × ℤ)) (e : ℕ × ℤ × ℤ) (he : e ∈ es) :
    e.2 ∈ rowOf es e.1 := by
  simp only [rowOf, List.mem_map]
  exact ⟨e, List.mem_filter.mpr ⟨he, by simp⟩, rfl⟩

theorem incEvents_length (reg : List (ℕ × (ℕ × ℕ))) :
    (incEvents reg).length = 2 * reg.length := by
  simp only [incEvents, List.length_flatten, List.map_map]
  have : (reg.enum.map (List.length ∘ fun p =>
      [(p.2.2.1, ((p.1 : ℤ), -1)), (p.2.2.2, ((p.1 : ℤ), 1))])) =
      List.replicate reg.enum.length 2 := by
    rw [← List.map_const]
    exact List.map_congr_left (fun p _ => rfl)
  rw [this, List.sum_replicate, List.enum_length]
  simp [Nat.mul_comm]

/-- Entries of a node's incidence list: nonnegative link index, direction
sign `-1` or `+1`. -/
theorem nodeIncidences_entries (reg : List (ℕ × (ℕ × ℕ))) (nd : ℕ) (v : ℤ × ℤ)
    (hv : v ∈ nodeIncidences reg nd) : 0 ≤ v.1 ∧ (v.2 = -1 ∨ v.2 = 1) := by
  simp only [nodeIncidences, rowOf, List.mem_map] at hv
  obtain ⟨e, he, rfl⟩ := hv
  have hes : e ∈ incEvents reg := (List.mem_filter.mp he).1
  obtain ⟨i, en, _, hcase⟩ := incEvents_mem reg e hes
  rcases hcase with rfl | rfl
  · exact ⟨by positivity, Or.inl rfl⟩
  · exact ⟨by positivity, Or.inr rfl⟩

/-- Total slot writes split by node: the degrees of the nodes sum to the
number of incidence events. -/
theorem sum_rowOf_length (es : List (ℕ × ℤ × ℤ)) (n : ℕ) (h : ∀ e ∈ es, e.1 < n) :
    ∑ nd ∈ Finset.range n, (rowOf es nd).length = es.length := by
  induction es with
  | nil => simp [rowOf]
  | cons e rest ih =>
    have hrest : ∀ x ∈ rest, x.1 < n := fun x hx => h x (List.mem_cons_of_mem _ hx)
    have hcons : ∀ nd, (rowOf (e :: rest) nd).length =
        (if e.1 = nd then 1 else 0) + (rowOf rest nd).length := by
      intro nd
      by_cases hnd : e.1 = nd <;> simp [rowOf, List.filter_cons, hnd] <;> omega
    rw [Finset.sum_congr rfl (fun nd _ => hcons nd), Finset.sum_add_distrib, ih hrest]
    have hone : ∑ nd ∈ Finset.range n, (if e.1 = nd then 1 else 0) = 1 := by
      rw [Finset.sum_ite_eq (Finset.range n) e.1 (fun _ => 1)]
      simp [h e (List.mem_cons_self e rest)]
    rw [hone]
    simp [Nat.add_comm]

/-- Row-level characterisation of the incidence tables of a built mesh. -/
theorem links_at_node_rows (vertices : List Vec3) (ico_faces : List Tri) (m : PreMesh)
    (hm : buildStruct vertices ico_faces = some m) (nd : ℕ)
    (hnd : nd < m.number_of_nodes) :
    nodeDegree (linkRegistry ico_faces) nd ≤ 6 ∧
    m.links_at_node[nd]? = some
      ((nodeIncidences (linkRegistry ico_faces) nd).map Prod.fst ++
        List.replicate (6 - nodeDegree (linkRegistry ico_faces) nd) (-1)) ∧
    m.link_dirs_at_node[nd]? = some
      ((nodeIncidences (linkRegistry ico_faces) nd).map Prod.snd ++
        List.replicate (6 - nodeDegree (linkRegistry ico_faces) nd) 0) ∧
    (∀ e ∈ incEvents (linkRegistry ico_faces), e.1 < m.number_of_nodes) := by
  obtain ⟨ft, cf, d, hft, hcf, hd, hcaf, hcap, hcells, hN, hcoords, hL, hnal, hlan,
    hldan, hNp, hNc, hpatch, hcan, hNf, hNcells⟩ := buildStruct_spec vertices ico_faces m hm
  obtain ⟨hrows, hall⟩ := fillRun_success vertices.length _ ft hft
  obtain ⟨h6, hc, ht, hdd⟩ := hrows nd (lt_of_lt_of_le hnd (le_of_eq hN))
  refine ⟨h6, by rw [hlan]; exact ht, by rw [hldan]; exact hdd, ?_⟩
  intro e he
  rw [hN]
  exact hall e he

/-- C4: after `setup_links`, every link is recorded in both endpoints'
incident-link tables, with direction sign `-1` at the tail's write and
`+1` at the head's write, at the next free slot (the rows list the
incidences in write order); each node's row holds exactly `degree`-many
valid (non-sentinel) entries, is `-1`-padded to capacity 6, and the node
degrees sum to `2 * number_of_links`. -/
theorem setup_links_incidence_tables (vertices : List Vec3) (ico_faces : List Tri)
    (m : PreMesh) (hm : buildStruct vertices ico_faces = some m) :
    (∀ nd, nd < m.number_of_nodes →
      ∃ row drow,
        m.links_at_node[nd]? = some row ∧ m.link_dirs_at_node[nd]? = some drow ∧
        nodeDegree (linkRegistry ico_faces) nd ≤ 6 ∧
        row = (nodeIncidences (linkRegistry ico_faces) nd).map Prod.fst ++
          List.replicate (6 - nodeDegree (linkRegistry ico_faces) nd) (-1) ∧
        drow = (nodeIncidences (linkRegistry ico_faces) nd).map Prod.snd ++
          List.replicate (6 - nodeDegree (linkRegistry ico_faces) nd) 0 ∧
        (row.filter (fun c => c ≠ -1)).length = nodeDegree (linkRegistry ico_faces) nd) ∧
    (∀ i ln, i < m.number_of_links → m.nodes_at_link[i]? = some ln →
      ((i : ℤ), -1) ∈ nodeIncidences (linkRegistry ico_faces) ln.1 ∧
      ((i : ℤ), 1) ∈ nodeIncidences (linkRegistry ico_faces) ln.2) ∧
    ∑ nd ∈ Finset.range m.number_of_nodes, nodeDegree (linkRegistry ico_faces) nd =
      2 * m.number_of_links := by
  refine ⟨?_, ?_, ?_⟩
  · intro nd hnd
    obtain ⟨h6, ht, hdd, _⟩ := links_at_node_rows vertices ico_faces m hm nd hnd
    refine ⟨_, _, ht, hdd, h6, rfl, rfl, ?_⟩
    rw [List.filter_append]
    have hvals : ((nodeIncidences (linkRegistry ico_faces) nd).map Prod.fst).filter
        (fun c => c ≠ -1) = (nodeIncidences (linkRegistry ico_faces) nd).map Prod.fst := by
      rw [List.filter_eq_self]
      intro a ha
      obtain ⟨v, hv, rfl⟩ := List.mem_map.mp ha
      have := (nodeIncidences_entries _ _ _ hv).1
      simp only [decide_eq_true_eq]
      omega
    have hpad : (List.replicate (6 - nodeDegree (linkRegistry ico_faces) nd)
        ((-1 : ℤ))).filter (fun c => c ≠ -1) = [] := by
      rw [List.filter_eq_nil_iff]
      intro a ha
      rw [List.eq_of_mem_replicate ha]
      simp
    rw [hvals, hpad, List.append_nil, List.length_map]
    rfl
  · intro i ln hi hln
    obtain ⟨en, hen, henv⟩ := nodes_at_link_access vertices ico_faces m hm i hi
    rw [henv] at hln
    obtain rfl := Option.some_inj.mp hln
    obtain ⟨hev1, hev2⟩ := incEvents_of_entry (linkRegistry ico_faces) i en hen
    exact ⟨rowOf_mem _ _ hev1, rowOf_mem _ _ hev2⟩
  · have hLlen : m.number_of_links = (linkRegistry ico_faces).length := by
      obtain ⟨ft, cf, d, hft, hcf, hd, hcaf, hcap, hcells, hN, hcoords, hL, hnal, hlan,
        hldan, hNp, hNc, hpatch, hcan, hNf, hNcells⟩ :=
        buildStruct_spec vertices ico_faces m hm
      exact hL
    have hall : ∀ e ∈ incEvents (linkRegistry ico_faces), e.1 < m.number_of_nodes := by
      rcases Nat.eq_zero_or_pos m.number_of_nodes with hz | hpos
      · intro e he
        exfalso
        obtain ⟨ft, cf, d, hft, hcf, hd, hcaf, hcap, hcells, hN, hcoords, hL, hnal, hlan,
          hldan, hNp, hNc, hpatch, hcan, hNf, hNcells⟩ :=
          buildStruct_spec vertices ico_faces m hm
        obtain ⟨_, hall2⟩ := fillRun_success vertices.length _ ft hft
        have := hall2 e he
        omega
      · exact (links_at_node_rows vertices ico_faces m hm 0 hpos).2.2.2
    have := sum_rowOf_length (incEvents (linkRegistry ico_faces)) m.number_of_nodes hall
    unfold nodeDegree nodeIncidences
    rw [this, incEvents_length, hLlen]

/-- C4 (witness): the tetrahedron's degrees sum to twice its link count. -/
theorem setup_links_incidence_tables_witness :
    ∃ m, buildStruct tetraVerts tetraFaces = some m ∧
      ∑ nd ∈ Finset.range m.number_of_nodes, nodeDegree (linkRegistry tetraFaces) nd =
        2 * m.number_of_links := by
  have h : (buildStruct tetraVerts tetraFaces).isSome = true := by decide
  refine ⟨(buildStruct tetraVerts tetraFaces).get h, (Option.some_get h).symm, ?_⟩
  exact (setup_links_incidence_tables tetraVerts tetraFaces _ (Option.some_get h).symm).2.2

/-- C10: in the built incidence tables, a direction entry is `-1` or `+1`
exactly at the slots holding a valid (nonnegative) link index and `0` at
every `-1`-sentinel padding slot — so the number of incident links equals
the number of nonzero direction entries (the direction table does not use
the `-1` sentinel for padding). -/
theorem link_dirs_zero_padding (vertices : List Vec3) (ico_faces : List Tri)
    (m : PreMesh) (hm : buildStruct vertices ico_faces = some m) :
    ∀ nd, nd < m.number_of_nodes →
      ∃ row drow,
        m.links_at_node[nd]? = some row ∧ m.link_dirs_at_node[nd]? = some drow ∧
        row.length = 6 ∧ drow.length = 6 ∧
        (∀ s, s < 6 → ∃ lv dv, row[s]? = some lv ∧ drow[s]? = some dv ∧
          ((dv = -1 ∨ dv = 1) ↔ 0 ≤ lv) ∧ (dv = 0 ↔ lv = -1)) ∧
        (drow.filter (fun x => x ≠ 0)).length = nodeDegree (linkRegistry ico_faces) nd ∧
        (row.filter (fun c => 0 ≤ c)).length = nodeDegree (linkRegistry ico_faces) nd := by
  intro nd hnd
  obtain ⟨h6, ht, hdd, _⟩ := links_at_node_rows vertices ico_faces m hm nd hnd
  set inc := nodeIncidences (linkRegistry ico_faces) nd with hinc
  set k := nodeDegree (linkRegistry ico_faces) nd with hk
  have hklen : (inc.map Prod.fst).length = k := by
    rw [List.length_map]
    rfl
  have hklen2 : (inc.map Prod.snd).length = k := by
    rw [List.length_map]
    rfl
  refine ⟨_, _, ht, hdd, ?_, ?_, ?_, ?_, ?_⟩
  · rw [List.length_append, List.length_replicate, hklen]
    omega
  · rw [List.length_append, List.length_replicate, hklen2]
    omega
  · intro s hs
    by_cases hsk : s < k
    · have hv : ∃ lv, (inc.map Prod.fst)[s]? = some lv := by
        rw [List.getElem?_eq_getElem (by omega)]
        exact ⟨_, rfl⟩
      obtain ⟨lv, hlv⟩ := hv
      have hdv : ∃ dv, (inc.map Prod.snd)[s]? = some dv := by
        rw [List.getElem?_eq_getElem (by omega)]
        exact ⟨_, rfl⟩
      obtain ⟨dv, hdv⟩ := hdv
      have hlv0 : 0 ≤ lv := by
        have hmem := List.getElem?_mem hlv
        obtain ⟨v, hvmem, rfl⟩ := List.mem_map.mp hmem
        exact (nodeIncidences_entries _ _ _ hvmem).1
      have hdv1 : dv = -1 ∨ dv = 1 := by
        have hmem := List.getElem?_mem hdv
        obtain ⟨v, hvmem, rfl⟩ := List.mem_map.mp hmem
        exact (nodeIncidences_entries _ _ _ hvmem).2
      refine ⟨lv, dv, ?_, ?_, ?_, ?_⟩
      · rw [List.getElem?_append_left (by omega)]
        exact hlv
      · rw [List.getElem?_append_left (by omega)]
        exact hdv
      · exact ⟨fun _ => hlv0, fun _ => hdv1⟩
      · constructor
        · intro h0
          rcases hdv1 with rfl | rfl <;> simp at h0
        · intro hm1
          omega
    · refine ⟨-1, 0, ?_, ?_, ?_, ?_⟩
      · rw [List.getElem?_append_right (by omega), hklen,
          List.getElem?_replicate_of_lt (by omega)]
      · rw [List.getElem?_append_right (by omega), hklen2,
          List.getElem?_replicate_of_lt (by omega)]
      · constructor
        · rintro (h0 | h0) <;> simp at h0
        · intro h0
          omega
      · simp
  · rw [List.filter_append]
    have hdirs : (inc.map Prod.snd).filter (fun x => x ≠ 0) = inc.map Prod.snd := by
      rw [List.filter_eq_self]
      intro a ha
      obtain ⟨v, hv, rfl⟩ := List.mem_map.mp ha
      have := (nodeIncidences_entries _ _ _ hv).2
      simp only [decide_eq_true_eq]
      omega
    have hpad : (List.replicate (6 - k) (0 : ℤ)).filter (fun x => x ≠ 0) = [] := by
      rw [List.filter_eq_nil_iff]
      intro a ha
      rw [List.eq_of_mem_replicate ha]
      simp
    rw [hdirs, hpad, List.append_nil, hklen2]
  · rw [List.filter_append]
    have hvals : (inc.map Prod.fst).filter (fun c => 0 ≤ c) = inc.map Prod.fst := by
      rw [List.filter_eq_self]
      intro a ha
      obtain ⟨v, hv, rfl⟩ := List.mem_map.mp ha
      have := (nodeIncidences_entries _ _ _ hv).1
      simp only [decide_eq_true_eq]
      omega
    have hpad : (List.replicate (6 - k) ((-1 : ℤ))).filter (fun c => 0 ≤ c) = [] := by
      rw [List.filter_eq_nil_iff]
      intro a ha
      rw [List.eq_of_mem_replicate ha]
      simp
    rw [hvals, hpad, List.append_nil, hklen]

/-- C10 (witness): node 0 of the tetrahedron instantiates the slot/sign
characterisation. -/
theorem link_dirs_zero_padding_witness :
    ∃ m, buildStruct tetraVerts tetraFaces = some m ∧
      ∃ row drow,
        m.links_at_node[0]? = some row ∧ m.link_dirs_at_node[0]? = some drow ∧
        row.length = 6 ∧ drow.length = 6 ∧
        (∀ s, s < 6 → ∃ lv dv, row[s]? = some lv ∧ drow[s]? = some dv ∧
          ((dv = -1 ∨ dv = 1) ↔ 0 ≤ lv) ∧ (dv = 0 ↔ lv = -1)) ∧
        (drow.filter (fun x => x ≠ 0)).length = nodeDegree (linkRegistry tetraFaces) 0 ∧
        (row.filter (fun c => 0 ≤ c)).length = nodeDegree (linkRegistry tetraFaces) 0 := by
  have h : (buildStruct tetraVerts tetraFaces).isSome = true := by decide
  refine ⟨(buildStruct tetraVerts tetraFaces).get h, (Option.some_get h).symm, ?_⟩
  have h4 : (buildStruct tetraVerts tetraFaces).map PreMesh.number_of_nodes = some 4 := by
    decide
  rw [(Option.some_get h).symm] at h4
  simp only [Option.map_some'] at h4
  exact link_dirs_zero_padding tetraVerts tetraFaces _ (Option.some_get h).symm 0
    (Option.some_inj.mp h4 ▸ Nat.zero_lt_succ 3)

/-! ## Claim C2 -/

/-- Indices (from `i` upward) of the triangles whose vertex sets contain
both `a` and `b`. -/
def patchesContainingAux (a b : ℕ) : List Tri → ℕ → List ℕ
  | [], _ => []
  | t :: rest, i =>
    if (a = t.1 ∨ a = t.2.1 ∨ a = t.2.2) ∧ (b = t.1 ∨ b = t.2.1 ∨ b = t.2.2) then
      i :: patchesContainingAux a b rest (i + 1)
    else patchesContainingAux a b rest (i + 1)

/-- The patch indices whose vertex sets contain both `a` and `b`, in
patch order (the claim's "patches whose vertex sets contain both of the
link's endpoint nodes"). -/
def patchesContaining (pats : List Tri) (a b : ℕ) : List ℕ :=
  patchesContainingAux a b pats 0

/-- One triangle's registrations under a fixed unordered key: exactly one
when the triangle contains both endpoints, none otherwise (for triangles
with three distinct vertices and `a ≠ b`). -/
theorem patchEdgeKeys_filter (t : Tri) (a b : ℕ) (hab : a ≠ b)
    (hdist : t.1 ≠ t.2.1 ∧ t.2.1 ≠ t.2.2 ∧ t.2.2 ≠ t.1) (i : ℕ) :
    ((patchEdgeKeys t).map (fun k => (k, i))).filter
        (fun ev => ev.1 == (min a b, max a b)) =
      if (a = t.1 ∨ a = t.2.1 ∨ a = t.2.2) ∧ (b = t.1 ∨ b = t.2.1 ∨ b = t.2.2) then
        [((min a b, max a b), i)] else [] := by
  obtain ⟨x, y, z⟩ := t
  obtain ⟨hxy, hyz, hzx⟩ := hdist
  simp only [patchEdgeKeys, List.map_cons, List.map_nil, List.filter_cons, List.filter_nil,
    beq_iff_eq, Prod.mk.injEq, decide_eq_true_eq, and_true] at *
  by_cases h0 : z ⊓ x = a ⊓ b ∧ z ⊔ x = a ⊔ b
  · rw [if_pos h0, if_neg (show ¬(x ⊓ y = a ⊓ b ∧ x ⊔ y = a ⊔ b) by omega),
      if_neg (show ¬(y ⊓ z = a ⊓ b ∧ y ⊔ z = a ⊔ b) by omega),
      if_pos (show (a = x ∨ a = y ∨ a = z) ∧ (b = x ∨ b = y ∨ b = z) by omega)]
    simp only [List.cons.injEq, Prod.mk.injEq, and_true]
    omega
  · by_cases h1 : x ⊓ y = a ⊓ b ∧ x ⊔ y = a ⊔ b
    · rw [if_neg h0, if_pos h1,
        if_neg (show ¬(y ⊓ z = a ⊓ b ∧ y ⊔ z = a ⊔ b) by omega),
        if_pos (show (a = x ∨ a = y ∨ a = z) ∧ (b = x ∨ b = y ∨ b = z) by omega)]
      simp only [List.cons.injEq, Prod.mk.injEq, and_true]
      omega
    · by_cases h2 : y ⊓ z = a ⊓ b ∧ y ⊔ z = a ⊔ b
      · rw [if_neg h0, if_neg h1, if_pos h2,
          if_pos (show (a = x ∨ a = y ∨ a = z) ∧ (b = x ∨ b = y ∨ b = z) by omega)]
        simp only [List.cons.injEq, Prod.mk.injEq, and_true]
        omega
      · rw [if_neg h0, if_neg h1, if_neg h2,
          if_neg (show ¬((a = x ∨ a = y ∨ a = z) ∧ (b = x ∨ b = y ∨ b = z)) by omega)]

/-- The registrations under a link's unordered key are exactly the
patches containing both endpoints, in patch order. -/
theorem regsAt_eq_patchesContaining (pats : List Tri) (a b : ℕ) (hab : a ≠ b)
    (hdist : ∀ t ∈ pats, t.1 ≠ t.2.1 ∧ t.2.1 ≠ t.2.2 ∧ t.2.2 ≠ t.1) :
    regsAt (patchPairEvents pats) (min a b, max a b) = patchesContaining pats a b := by
  suffices h : ∀ (ps : List Tri) (i : ℕ), (∀ t ∈ ps, t.1 ≠ t.2.1 ∧ t.2.1 ≠ t.2.2 ∧ t.2.2 ≠ t.1) →
      regsAt (((ps.enumFrom i).map
          (fun p => (patchEdgeKeys p.2).map (fun k => (k, p.1)))).flatten)
        (min a b, max a b) = patchesContainingAux a b ps i by
    have := h pats 0 hdist
    rw [← List.enum_eq_enumFrom] at this
    exact this
  intro ps
  induction ps with
  | nil =>
    intro i _
    simp [regsAt, patchesContainingAux, List.enumFrom_nil]
  | cons t rest ih =>
    intro i hdist2
    rw [List.enumFrom_cons]
    simp only [List.map_cons, List.flatten_cons]
    unfold regsAt
    rw [List.filter_append, List.map_append]
    have hstep := patchEdgeKeys_filter t a b hab (hdist2 t (List.mem_cons_self t rest)) i
    unfold patchesContainingAux
    by_cases hm : (a = t.1 ∨ a = t.2.1 ∨ a = t.2.2) ∧ (b = t.1 ∨ b = t.2.1 ∨ b = t.2.2)
    · rw [if_pos hm] at hstep
      rw [if_pos hm, hstep]
      have := ih (i + 1) (fun u hu => hdist2 u (List.mem_cons_of_mem t hu))
      unfold regsAt at this
      rw [this]
      rfl
    · rw [if_neg hm] at hstep
      rw [if_neg hm, hstep]
      have := ih (i + 1) (fun u hu => hdist2 u (List.mem_cons_of_mem t hu))
      unfold regsAt at this
      rw [this]
      rfl

/-- Links of a mesh built from distinct-vertex triangles have distinct
endpoints. -/
theorem link_endpoints_ne (vertices : List Vec3) (ico_faces : List Tri) (m : PreMesh)
    (hm : buildStruct vertices ico_faces = some m)
    (hdist : ∀ t ∈ ico_faces, t.1 ≠ t.2.1 ∧ t.2.1 ≠ t.2.2 ∧ t.2.2 ≠ t.1)
    (i : ℕ) (ln : ℕ × ℕ) (hi : i < m.number_of_links)
    (hln : m.nodes_at_link[i]? = some ln) : ln.1 ≠ ln.2 := by
  obtain ⟨en, hen, henv⟩ := nodes_at_link_access vertices ico_faces m hm i hi
  rw [henv] at hln
  obtain rfl := Option.some_inj.mp hln
  have hmem : en ∈ linkRegistry ico_faces := List.mem_iff_getElem?.mpr ⟨i, hen⟩
  have hfirst := linkRegistry_value_first ico_faces en.1 en.2 hmem
  have hev : en.2 ∈ edgeEvents ico_faces := (firstWith_mem _ _ _ hfirst).1
  simp only [edgeEvents, List.mem_flatten, List.mem_map] at hev
  obtain ⟨l, ⟨t, ht, rfl⟩, hel⟩ := hev
  obtain ⟨h1, h2, h3⟩ := hdist t ht
  simp only [triEdges, List.mem_cons, List.mem_singleton, List.not_mem_nil, or_false] at hel
  rcases hel with h | h | h <;> rw [h] <;> simpa using by
    first
    | exact h1
    | exact h2
    | exact h3

/-- C2: for a built mesh whose triangles each have three distinct
vertices (in particular any closed mesh input), every face's corner pair
is exactly the `(lower, higher)` pair of the two patches containing both
endpoint nodes of the face's link, the face length is
`radius * arc_length` between those two corners' coordinates, and the
length is positive whenever the two corner positions are distinct points
of the radius-`radius` sphere (`dot < radius^2`). -/
theorem setup_faces_two_adjacent_patches (vertices : List Vec3) (ico_faces : List Tri)
    (m : PreMesh) (radius : ℝ) (hm : buildStruct vertices ico_faces = some m)
    (hdist : ∀ t ∈ ico_faces, t.1 ≠ t.2.1 ∧ t.2.1 ≠ t.2.2 ∧ t.2.2 ≠ t.1)
    (face : ℕ) (hface : face < m.number_of_faces)
    (ln : ℕ × ℕ) (hln : m.nodes_at_link[face]? = some ln)
    (p q : ℕ) (hpq : patchesContaining ico_faces ln.1 ln.2 = [p, q]) :
    m.corners_at_face[face]? = some (min p q, max p q) ∧
    length_of_face_fun m radius face = radius * arc_length
      (coords_of_corner_fun m.coords_of_node m.nodes_at_patch radius (min p q))
      (coords_of_corner_fun m.coords_of_node m.nodes_at_patch radius (max p q)) radius ∧
    (0 < radius →
      dot3 (coords_of_corner_fun m.coords_of_node m.nodes_at_patch radius (min p q))
          (coords_of_corner_fun m.coords_of_node m.nodes_at_patch radius (max p q)) <
        radius ^ 2 →
      0 < length_of_face_fun m radius face) := by
  obtain ⟨ft, cf, d, hft, hcf, hd, hcaf, hcap, hcells, hN, hcoords, hL, hnal, hlan,
    hldan, hNp, hNc, hpatch, hcan, hNf, hNcells⟩ := buildStruct_spec vertices ico_faces m hm
  have hfaceL : face < (linkRegistry ico_faces).length := by
    rw [hNf] at hface
    exact hface
  have hlnne : ln.1 ≠ ln.2 :=
    link_endpoints_ne vertices ico_faces m hm hdist face ln (by rw [hL]; exact hfaceL) hln
  have hlook : alookup d (min ln.1 ln.2, max ln.1 ln.2) =
      some (PatchEntry.two (min p q) (max p q)) := by
    have hspec := (patches_at_node_pair_spec ico_faces d hd
      (min ln.1 ln.2, max ln.1 ln.2)).2
    rw [regsAt_eq_patchesContaining ico_faces ln.1 ln.2 hlnne hdist, hpq] at hspec
    rw [hspec]
    simp only [pairAcc]
    rw [min_comm q p, max_comm q p]
  have hfc : faceCorners d m.nodes_at_link face = some (min p q, max p q) := by
    simp only [faceCorners, hln, hlook]
  have hcafe : m.corners_at_face[face]? = some (min p q, max p q) := by
    obtain ⟨hlen, hget⟩ := optMapList_spec _ _ _ hcaf
    have := hget face
    rw [List.getElem?_range hfaceL] at this
    rw [this]
    simpa using hfc
  refine ⟨hcafe, ?_, ?_⟩
  · unfold length_of_face_fun
    rw [hcafe]
  · intro hr hdot
    unfold length_of_face_fun
    rw [hcafe]
    have harc : 0 < arc_length
        (coords_of_corner_fun m.coords_of_node m.nodes_at_patch radius (min p q))
        (coords_of_corner_fun m.coords_of_node m.nodes_at_patch radius (max p q)) radius := by
      unfold arc_length
      rw [Real.arccos_pos]
      rw [div_lt_one (by positivity)]
      exact hdot
    exact mul_pos hr harc

/-- The corners of the tetrahedron's patches 0 and 1 are distinct points
of the unit sphere: their dot product is below `1`. -/
theorem tetra_corner_dot :
    dot3 (coords_of_corner_fun tetraVerts tetraFaces 1 0)
      (coords_of_corner_fun tetraVerts tetraFaces 1 1) < (1 : ℝ) ^ 2 := by
  have h0 : coords_of_corner_fun tetraVerts tetraFaces 1 0 =
      scale3 (1 / Real.sqrt 48) (4, 4, -4) := by
    rw [show coords_of_corner_fun tetraVerts tetraFaces 1 0 =
      scale3 ((1 : ℝ) / norm3 (cross3 (sub3 (toRV (1, -1, -1)) (toRV (1, 1, 1)))
          (sub3 (toRV (-1, 1, -1)) (toRV (1, 1, 1)))))
        (cross3 (sub3 (toRV (1, -1, -1)) (toRV (1, 1, 1)))
          (sub3 (toRV (-1, 1, -1)) (toRV (1, 1, 1)))) from rfl]
    have hcr : cross3 (sub3 (toRV (1, -1, -1)) (toRV (1, 1, 1)))
        (sub3 (toRV (-1, 1, -1)) (toRV (1, 1, 1))) = ((4 : ℝ), 4, -4) := by
      simp only [toRV, sub3, cross3, Prod.mk.injEq]
      norm_num
    rw [hcr]
    have hn : norm3 ((4 : ℝ), 4, -4) = Real.sqrt 48 := by
      simp only [norm3]
      norm_num
    rw [hn]
  have h1 : coords_of_corner_fun tetraVerts tetraFaces 1 1 =
      scale3 (1 / Real.sqrt 48) (4, -4, 4) := by
    rw [show coords_of_corner_fun tetraVerts tetraFaces 1 1 =
      scale3 ((1 : ℝ) / norm3 (cross3 (sub3 (toRV (-1, -1, 1)) (toRV (1, 1, 1)))
          (sub3 (toRV (1, -1, -1)) (toRV (1, 1, 1)))))
        (cross3 (sub3 (toRV (-1, -1, 1)) (toRV (1, 1, 1)))
          (sub3 (toRV (1, -1, -1)) (toRV (1, 1, 1)))) from rfl]
    have hcr : cross3 (sub3 (toRV (-1, -1, 1)) (toRV (1, 1, 1)))
        (sub3 (toRV (1, -1, -1)) (toRV (1, 1, 1))) = ((4 : ℝ), -4, 4) := by
      simp only [toRV, sub3, cross3, Prod.mk.injEq]
      norm_num
    rw [hcr]
    have hn : norm3 ((4 : ℝ), -4, 4) = Real.sqrt 48 := by
      simp only [norm3]
      norm_num
    rw [hn]
  rw [h0, h1]
  simp only [dot3, scale3]
  have hk2 : 0 < (1 / Real.sqrt 48) * (1 / Real.sqrt 48) := by positivity
  nlinarith [hk2]

/-- C2 (witness): face 0 of the tetrahedron joins the corners of patches
0 and 1 (the two triangles containing nodes 0 and 1) and has positive
length. -/
theorem setup_faces_two_adjacent_patches_witness :
    ∃ m, buildStruct tetraVerts tetraFaces = some m ∧
      m.corners_at_face[0]? = some (min 0 1, max 0 1) ∧ 0 < length_of_face_fun m 1 0 := by
  have h : (buildStruct tetraVerts tetraFaces).isSome = true := by decide
  refine ⟨(buildStruct tetraVerts tetraFaces).get h, (Option.some_get h).symm, ?_⟩
  have hmEq := (Option.some_get h).symm
  obtain ⟨ft, cf, d, hft, hcf, hd, hcaf, hcap, hcells, hN, hcoords, hL, hnal, hlan,
    hldan, hNp, hNc, hpatch, hcan, hNf, hNcells⟩ :=
    buildStruct_spec tetraVerts tetraFaces _ hmEq
  have hface : 0 < ((buildStruct tetraVerts tetraFaces).get h).number_of_faces := by
    have h6 : (buildStruct tetraVerts tetraFaces).map PreMesh.number_of_faces =
        some 6 := by decide
    rw [hmEq] at h6
    simp only [Option.map_some'] at h6
    have h6i := Option.some_inj.mp h6
    omega
  have hln : ((buildStruct tetraVerts tetraFaces).get h).nodes_at_link[0]? =
      some (0, 1) := by
    have h01 : (buildStruct tetraVerts tetraFaces).map (fun m2 => m2.nodes_at_link[0]?) =
        some (some (0, 1)) := by decide
    rw [hmEq] at h01
    simp only [Option.map_some'] at h01
    exact Option.some_inj.mp h01
  have hc := setup_faces_two_adjacent_patches tetraVerts tetraFaces _ 1 hmEq
    (by decide) 0 hface (0, 1) hln 0 1 (by decide)
  refine ⟨hc.1, ?_⟩
  refine hc.2.2 (by norm_num) ?_
  rw [hcoords, hpatch]
  simpa using tetra_corner_dot

/-! ## Claim C9 -/

theorem norm3_pos (v : RV3) (h : v ≠ (0, 0, 0)) : 0 < norm3 v := by
  unfold norm3
  rw [Real.sqrt_pos]
  rcases v with ⟨x, y, z⟩
  by_contra hle
  push_neg at hle
  have hx2 : x ^ 2 = 0 := le_antisymm (by nlinarith [sq_nonneg y, sq_nonneg z]) (sq_nonneg x)
  have hy2 : y ^ 2 = 0 := le_antisymm (by nlinarith [sq_nonneg x, sq_nonneg z]) (sq_nonneg y)
  have hz2 : z ^ 2 = 0 := le_antisymm (by nlinarith [sq_nonneg x, sq_nonneg y]) (sq_nonneg z)
  exact h (by simp [pow_eq_zero_iff] at hx2 hy2 hz2; simp [hx2, hy2, hz2])

theorem norm3_scale3 (k : ℝ) (v : RV3) : norm3 (scale3 k v) = |k| * norm3 v := by
  unfold norm3 scale3
  rw [show (k * v.1) ^ 2 + (k * v.2.1) ^ 2 + (k * v.2.2) ^ 2 =
    k ^ 2 * (v.1 ^ 2 + v.2.1 ^ 2 + v.2.2 ^ 2) from by ring]
  rw [Real.sqrt_mul (sq_nonneg k), Real.sqrt_sq_eq_abs]

/-- C9: for every patch whose triangle is nondegenerate (nonzero cross
product) and positive radius, the corner coordinates computed by
`set_coords_of_corner` equal the spec's
`radius * normalize(cross(p1 - p0, p2 - p0))`, and the corner's Euclidean
norm is exactly the radius — every corner lies on the sphere. -/
theorem corner_coords_on_sphere (coordsN : List Vec3) (pats : List Tri) (radius : ℝ)
    (p : ℕ) (t : Tri) (ht : pats[p]? = some t)
    (hcross : cross3 (sub3 (toRV (coordsN.getD t.2.1 (0, 0, 0)))
        (toRV (coordsN.getD t.1 (0, 0, 0))))
        (sub3 (toRV (coordsN.getD t.2.2 (0, 0, 0)))
          (toRV (coordsN.getD t.1 (0, 0, 0)))) ≠ (0, 0, 0))
    (hr : 0 < radius) :
    coords_of_corner_fun coordsN pats radius p = specCornerFormula coordsN pats radius p ∧
    norm3 (coords_of_corner_fun coordsN pats radius p) = radius := by
  have hpos := norm3_pos _ hcross
  set c := cross3 (sub3 (toRV (coordsN.getD t.2.1 (0, 0, 0)))
    (toRV (coordsN.getD t.1 (0, 0, 0))))
    (sub3 (toRV (coordsN.getD t.2.2 (0, 0, 0)))
      (toRV (coordsN.getD t.1 (0, 0, 0)))) with hc
  have hccf : coords_of_corner_fun coordsN pats radius p = scale3 (radius / norm3 c) c := by
    simp only [coords_of_corner_fun, ht, hc]
  have hspec : specCornerFormula coordsN pats radius p =
      scale3 radius (scale3 (norm3 c)⁻¹ c) := by
    simp only [specCornerFormula, ht, hc]
  constructor
  · rw [hccf, hspec]
    simp only [scale3, Prod.mk.injEq]
    refine ⟨by ring, by ring, by ring⟩
  · rw [hccf, norm3_scale3]
    rw [abs_of_pos (by positivity)]
    field_simp

/-- C9 (witness): a concrete patch over the points `(0,0,0)`, `(1,0,0)`,
`(0,1,0)` with radius 2: the cross product is `(0,0,1)` and the corner's
norm is 2. -/
theorem corner_coords_on_sphere_witness :
    norm3 (coords_of_corner_fun [(0, 0, 0), (1, 0, 0), (0, 1, 0)] [(0, 1, 2)] 2 0) = 2 := by
  refine (corner_coords_on_sphere [(0, 0, 0), (1, 0, 0), (0, 1, 0)] [(0, 1, 2)] 2 0
    (0, 1, 2) rfl ?_ (by norm_num)).2
  simp only [toRV, sub3, cross3, List.getD, Prod.mk.injEq]
  norm_num

/-! ## Claim C5 -/

/-- Values written into `corners_at_node` are patch indices, hence
nonnegative. -/
theorem cornerRow_entries (pats : List Tri) (nd : ℕ) (v : ℤ × ℤ)
    (hv : v ∈ rowOf (cornerEvents pats) nd) : 0 ≤ v.1 := by
  simp only [rowOf, List.mem_map] at hv
  obtain ⟨e, he, rfl⟩ := hv
  have hes : e ∈ cornerEvents pats := (List.mem_filter.mp he).1
  simp only [cornerEvents, List.mem_flatten, List.mem_map] at hes
  obtain ⟨l, ⟨p, hp, rfl⟩, hel⟩ := hes
  simp only [List.mem_cons, List.mem_singleton, List.not_mem_nil, or_false] at hel
  rcases hel with rfl | rfl | rfl <;> positivity

theorem countValid_append_replicate (vals : List ℤ) (r : ℕ)
    (hvals : ∀ v ∈ vals, 0 ≤ v) :
    countValid (vals ++ List.replicate r (-1)) = vals.length := by
  unfold countValid
  rw [List.filter_append]
  have h1 : vals.filter (fun c => c + 1 ≠ 0) = vals := by
    rw [List.filter_eq_self]
    intro a ha
    have := hvals a ha
    simp only [decide_eq_true_eq]
    omega
  have h2 : (List.replicate r ((-1 : ℤ))).filter (fun c => c + 1 ≠ 0) = [] := by
    rw [List.filter_eq_nil_iff]
    intro a ha
    rw [List.eq_of_mem_replicate ha]
    simp
  rw [h1, h2, List.append_nil]

theorem foldl_min_le_init (t : List ℤ) : ∀ a : ℤ, t.foldl min a ≤ a := by
  induction t with
  | nil => intro a; simp
  | cons x rest ih =>
    intro a
    calc rest.foldl min (min a x) ≤ min a x := ih (min a x)
    _ ≤ a := min_le_left a x

theorem foldl_min_le_mem (t : List ℤ) : ∀ (a x : ℤ), x ∈ t → t.foldl min a ≤ x := by
  induction t with
  | nil => intro a x hx; simp at hx
  | cons y rest ih =>
    intro a x hx
    rcases List.mem_cons.mp hx with rfl | hx2
    · calc rest.foldl min (min a x) ≤ min a x := foldl_min_le_init rest (min a x)
      _ ≤ x := min_le_right a x
    · exact ih (min a y) x hx2

theorem foldl_min_mem (t : List ℤ) : ∀ a : ℤ, t.foldl min a ∈ a :: t := by
  induction t with
  | nil => intro a; simp
  | cons x rest ih =>
    intro a
    have := ih (min a x)
    rcases List.mem_cons.mp this with h | h
    · rcases min_cases a x with ⟨hm, _⟩ | ⟨hm, _⟩
      · rw [List.foldl_cons]
        rw [h, hm]
        exact List.mem_cons_self a (x :: rest)
      · rw [List.foldl_cons]
        rw [h, hm]
        exact List.mem_cons_of_mem a (List.mem_cons_self x rest)
    · exact List.mem_cons_of_mem a (List.mem_cons_of_mem x h)

theorem rowMin_le (row : List ℤ) (x : ℤ) (hx : x ∈ row) : rowMin row ≤ x := by
  cases row with
  | nil => simp at hx
  | cons h t =>
    unfold rowMin
    rcases List.mem_cons.mp hx with rfl | hx2
    · exact foldl_min_le_init t x
    · exact foldl_min_le_mem t h x hx2

theorem rowMin_mem (row : List ℤ) (h : row ≠ []) : rowMin row ∈ row := by
  cases row with
  | nil => exact absurd rfl h
  | cons x t =>
    unfold rowMin
    exact foldl_min_mem t x

/-- Membership in a sorted row comes from the original row. -/
theorem mem_of_mem_sortRow (ang : ℤ → ℝ) (row : List ℤ) (x : ℤ)
    (hx : x ∈ sortRow ang row) : x ∈ row := by
  unfold sortRow at hx
  rcases List.mem_append.mp hx with h | h
  · exact List.take_subset _ _ ((List.perm_insertionSort _ _).mem_iff.mp h)
  · exact List.drop_subset _ _ h

/-- The row a node receives from the angular sort. -/
theorem sort_corners_ccw_row (m : PreMesh) (radius : ℝ) (cell : ℕ) (row0 : List ℤ)
    (hrow : m.corners_at_node[cell]? = some row0) :
    (sort_corners_ccw m radius).corners_at_node[cell]? =
      some (sortRow (localAngle m.coords_of_node m.nodes_at_patch radius cell) row0) := by
  simp only [sort_corners_ccw]
  rw [List.getElem?_map, List.getElem?_enum, hrow]
  rfl

/-- Structure of a built mesh's `corners_at_node` row: the written patch
indices in order, sentinel-padded. -/
theorem corners_at_node_row (vertices : List Vec3) (ico_faces : List Tri) (m : PreMesh)
    (hm : buildStruct vertices ico_faces = some m) (cell : ℕ) (row0 : List ℤ)
    (hrow : m.corners_at_node[cell]? = some row0) :
    ∃ vals, (∀ v ∈ vals, 0 ≤ v) ∧ vals.length ≤ 6 ∧
      row0 = vals ++ List.replicate (6 - vals.length) (-1) := by
  obtain ⟨ft, cf, d, hft, hcf, hd, hcaf, hcap, hcells, hN, hcoords, hL, hnal, hlan,
    hldan, hNp, hNc, hpatch, hcan, hNf, hNcells⟩ := buildStruct_spec vertices ico_faces m hm
  obtain ⟨hinv, hall⟩ := fillInv_run vertices.length (cornerEvents ico_faces) [] (initFill
    vertices.length) cf (fillInv_init vertices.length) hcf
  simp only [List.nil_append] at hinv
  obtain ⟨hlt, hld, hlc, hrows⟩ := hinv
  have hcell : cell < vertices.length := by
    by_contra hge
    rw [hcan] at hrow
    rw [List.getElem?_eq_none_iff.mpr (by omega)] at hrow
    simp at hrow
  obtain ⟨h6, hc, ht, hdd⟩ := hrows cell hcell
  rw [hcan] at hrow
  rw [ht] at hrow
  obtain rfl := Option.some_inj.mp hrow
  refine ⟨(rowOf (cornerEvents ico_faces) cell).map Prod.fst, ?_, by simpa using h6, ?_⟩
  · intro v hv
    obtain ⟨w, hw, rfl⟩ := List.mem_map.mp hv
    exact cornerRow_entries ico_faces cell w hw
  · rw [List.length_map]

/-- C5: for every cell of a built mesh with at least two incident
corners, `setup_cells` sets the cell's area to `n` times the
spherical-triangle area of the node's position and the coordinates of the
first two corners of the angularly sorted corner row, where `n` is 5 when
some corner slot holds the sentinel `-1` and 6 otherwise. -/
theorem setup_cells_area (vertices : List Vec3) (ico_faces : List Tri) (m : PreMesh)
    (radius : ℝ) (cell : ℕ) (row0 : List ℤ)
    (hm : buildStruct vertices ico_faces = some m)
    (hrow : m.corners_at_node[cell]? = some row0)
    (h2 : 2 ≤ countValid row0) :
    ∃ c0 c1 rest,
      (sort_corners_ccw m radius).corners_at_node[cell]? = some (c0 :: c1 :: rest) ∧
      0 ≤ c0 ∧ 0 ≤ c1 ∧
      area_of_cell_fun (sort_corners_ccw m radius) radius cell =
        (if (-1 : ℤ) ∈ c0 :: c1 :: rest then 5 else 6) *
          area_of_sphertri (toRV (m.coords_of_node.getD cell (0, 0, 0)))
            (coords_of_corner_fun m.coords_of_node m.nodes_at_patch radius c0.toNat)
            (coords_of_corner_fun m.coords_of_node m.nodes_at_patch radius c1.toNat)
            radius := by
  obtain ⟨vals, hvals0, hvals6, hvalseq⟩ :=
    corners_at_node_row vertices ico_faces m hm cell row0 hrow
  have hcv : countValid row0 = vals.length := by
    rw [hvalseq]
    exact countValid_append_replicate vals _ hvals0
  have htake : row0.take (countValid row0) = vals := by
    rw [hcv, hvalseq]
    exact List.take_left vals _
  set ang := localAngle m.coords_of_node m.nodes_at_patch radius cell with hang
  have hsrow := sort_corners_ccw_row m radius cell row0 hrow
  have hsort_structure : ∃ c0 c1 rest2,
      (row0.take (countValid row0)).insertionSort (fun a b => ang a ≤ ang b) =
        c0 :: c1 :: rest2 := by
    have hlen : ((row0.take (countValid row0)).insertionSort
        (fun a b => ang a ≤ ang b)).length = vals.length := by
      rw [(List.perm_insertionSort _ _).length_eq, htake]
    match hsl : (row0.take (countValid row0)).insertionSort (fun a b => ang a ≤ ang b) with
    | [] =>
      rw [hsl] at hlen
      simp at hlen
      omega
    | [c] =>
      rw [hsl] at hlen
      simp at hlen
      omega
    | c0 :: c1 :: rest2 => exact ⟨c0, c1, rest2, rfl⟩
  obtain ⟨c0, c1, rest2, hsl⟩ := hsort_structure
  have hrowsorted : sortRow ang row0 = c0 :: c1 :: (rest2 ++ row0.drop (countValid row0)) := by
    unfold sortRow
    rw [hsl]
    rfl
  have hmem01 : c0 ∈ vals ∧ c1 ∈ vals := by
    constructor <;>
    · rw [← htake]
      refine (List.perm_insertionSort (fun a b => ang a ≤ ang b)
        (row0.take (countValid row0))).mem_iff.mp ?_
      rw [hsl]
      simp
  have h0 : 0 ≤ c0 := hvals0 c0 hmem01.1
  have h1 : 0 ≤ c1 := hvals0 c1 hmem01.2
  refine ⟨c0, c1, rest2 ++ row0.drop (countValid row0), by rw [hsrow, hrowsorted], h0, h1, ?_⟩
  have hmemrow : ∀ x ∈ c0 :: c1 :: (rest2 ++ row0.drop (countValid row0)), (-1 : ℤ) ≤ x := by
    intro x hx
    have hx2 : x ∈ row0 := by
      apply mem_of_mem_sortRow ang
      rw [hrowsorted]
      exact hx
    rw [hvalseq] at hx2
    rcases List.mem_append.mp hx2 with h | h
    · have := hvals0 x h
      omega
    · rw [List.eq_of_mem_replicate h]
  have hgetd : (sort_corners_ccw m radius).corners_at_node.getD cell [] =
      c0 :: c1 :: (rest2 ++ row0.drop (countValid row0)) := by
    unfold List.getD
    rw [List.get?_eq_getElem?, hsrow, hrowsorted]
    rfl
  have hcoordsEq : (sort_corners_ccw m radius).coords_of_node = m.coords_of_node := rfl
  have hpatsEq : (sort_corners_ccw m radius).nodes_at_patch = m.nodes_at_patch := rfl
  have hncEq : (sort_corners_ccw m radius).number_of_corners = m.number_of_corners := rfl
  simp only [area_of_cell_fun]
  rw [hgetd, hcoordsEq, hpatsEq, hncEq]
  have hgd0 : (c0 :: c1 :: (rest2 ++ row0.drop (countValid row0))).getD 0 0 = c0 := rfl
  have hgd1 : (c0 :: c1 :: (rest2 ++ row0.drop (countValid row0))).getD 1 0 = c1 := rfl
  rw [hgd0, hgd1]
  have hw0 : wrapIdx m.number_of_corners c0 = c0.toNat := by
    unfold wrapIdx
    rw [if_pos h0]
  have hw1 : wrapIdx m.number_of_corners c1 = c1.toNat := by
    unfold wrapIdx
    rw [if_pos h1]
  rw [hw0, hw1]
  have hntri : (5 + (if rowMin (c0 :: c1 :: (rest2 ++ row0.drop (countValid row0))) > -1
      then (1 : ℝ) else 0)) =
      (if (-1 : ℤ) ∈ c0 :: c1 :: (rest2 ++ row0.drop (countValid row0)) then 5 else 6) := by
    set l := c0 :: c1 :: (rest2 ++ row0.drop (countValid row0)) with hl
    by_cases hmemn : (-1 : ℤ) ∈ l
    · have hle : rowMin l ≤ -1 := rowMin_le l (-1) hmemn
      rw [if_neg (by omega), if_pos hmemn]
      norm_num
    · have hmm : rowMin l ∈ l := rowMin_mem l (by simp [hl])
      have hge : (-1 : ℤ) ≤ rowMin l := hmemrow _ hmm
      have hne : rowMin l ≠ -1 := fun hcon => hmemn (hcon ▸ hmm)
      rw [if_pos (by omega), if_neg hmemn]
      norm_num
  rw [hntri]

/-- C5 (witness): cell 0 of the tetrahedron, whose corner row is
`[0, 1, 2, -1, -1, -1]`. -/
theorem setup_cells_area_witness :
    ∃ m, buildStruct tetraVerts tetraFaces = some m ∧
      ∃ c0 c1 rest,
        (sort_corners_ccw m 1).corners_at_node[0]? = some (c0 :: c1 :: rest) ∧
        0 ≤ c0 ∧ 0 ≤ c1 ∧
        area_of_cell_fun (sort_corners_ccw m 1) 1 0 =
          (if (-1 : ℤ) ∈ c0 :: c1 :: rest then 5 else 6) *
            area_of_sphertri (toRV (m.coords_of_node.getD 0 (0, 0, 0)))
              (coords_of_corner_fun m.coords_of_node m.nodes_at_patch 1 c0.toNat)
              (coords_of_corner_fun m.coords_of_node m.nodes_at_patch 1 c1.toNat) 1 := by
  have h : (buildStruct tetraVerts tetraFaces).isSome = true := by decide
  refine ⟨(buildStruct tetraVerts tetraFaces).get h, (Option.some_get h).symm, ?_⟩
  have hmEq := (Option.some_get h).symm
  have hrow : ((buildStruct tetraVerts tetraFaces).get h).corners_at_node[0]? =
      some [0, 1, 2, -1, -1, -1] := by
    have hr : (buildStruct tetraVerts tetraFaces).map (fun m2 => m2.corners_at_node[0]?) =
        some (some [0, 1, 2, -1, -1, -1]) := by decide
    rw [hmEq] at hr
    simp only [Option.map_some'] at hr
    exact Option.some_inj.mp hr
  exact setup_cells_area tetraVerts tetraFaces _ 1 0 [0, 1, 2, -1, -1, -1] hmEq hrow
    (by decide)

/-! ## Claim C1 -/

/-- C1: for every node, `sort_corners_ccw` replaces the valid prefix of
the node's corner row by its stable sort under the key
`localAngle` — the corner position rotated by the negative azimuth and
then the negative polar angle of the node, measured by `atan2(y, x)` and
normalised into `[0, 2*pi)` — ascending; when the node's corner angles
are pairwise distinct (as the claim asserts for icosphere meshes), the
sorted walk has strictly increasing angles with no duplicates.  (With
distinct keys the stable sort is the unique sorted permutation, so
`np.argsort`'s tie behaviour is immaterial.) -/
theorem sort_corners_ccw_sorted (m : PreMesh) (radius : ℝ) (node : ℕ) (row0 : List ℤ)
    (hrow : m.corners_at_node[node]? = some row0)
    (hdistinct : (row0.take (countValid row0)).Pairwise
      (fun a b => localAngle m.coords_of_node m.nodes_at_patch radius node a ≠
        localAngle m.coords_of_node m.nodes_at_patch radius node b)) :
    ∃ sorted,
      (sort_corners_ccw m radius).corners_at_node[node]? =
        some (sorted ++ row0.drop (countValid row0)) ∧
      List.Perm sorted (row0.take (countValid row0)) ∧
      (sorted.map (localAngle m.coords_of_node m.nodes_at_patch radius node)).Pairwise
        (· ≤ ·) ∧
      (sorted.map (localAngle m.coords_of_node m.nodes_at_patch radius node)).Pairwise
        (· < ·) := by
  set ang := localAngle m.coords_of_node m.nodes_at_patch radius node with hang
  set sorted := (row0.take (countValid row0)).insertionSort
    (fun a b => ang a ≤ ang b) with hsorted
  have hperm : List.Perm sorted (row0.take (countValid row0)) :=
    List.perm_insertionSort _ _
  haveI : IsTotal ℤ (fun a b => ang a ≤ ang b) := ⟨fun a b => le_total (ang a) (ang b)⟩
  haveI : IsTrans ℤ (fun a b => ang a ≤ ang b) := ⟨fun _ _ _ h1 h2 => le_trans h1 h2⟩
  have hsortedle : sorted.Pairwise (fun a b => ang a ≤ ang b) :=
    List.sorted_insertionSort _ _
  have hmaple : (sorted.map ang).Pairwise (· ≤ ·) := List.pairwise_map.mpr hsortedle
  have hne : sorted.Pairwise (fun a b => ang a ≠ ang b) :=
    (hperm.pairwise_iff (fun h => h.symm)).mpr hdistinct
  have hlt : (sorted.map ang).Pairwise (· < ·) := by
    refine List.pairwise_map.mpr ?_
    exact (hsortedle.and hne).imp (fun hab => lt_of_le_of_ne hab.1 hab.2)
  refine ⟨sorted, ?_, hperm, hmaple, hlt⟩
  rw [sort_corners_ccw_row m radius node row0 hrow]
  rfl

/-- A hand-built mesh used to instantiate the angular-sort theorem: node
0 sits at the pole `(0, 0, 1)` (so the local rotation is the identity)
and its three incident patches have corners at `(1,0,0)`, `(0,1,0)` and
`(-1,0,0)`, with local angles `0`, `pi/2` and `pi`. -/
def angleDemoMesh : PreMesh :=
  { number_of_nodes := 4
    coords_of_node := [(0, 0, 1), (0, 0, 0), (0, 1, 0), (1, 0, 0)]
    number_of_links := 0
    nodes_at_link := []
    links_at_node := []
    link_dirs_at_node := []
    number_of_patches := 3
    number_of_corners := 3
    nodes_at_patch := [(1, 2, 0), (1, 0, 3), (1, 0, 2)]
    corners_at_node :=
      [[0, 1, 2, -1, -1, -1], [-1, -1, -1, -1, -1, -1],
        [-1, -1, -1, -1, -1, -1], [-1, -1, -1, -1, -1, -1]]
    number_of_faces := 0
    corners_at_face := []
    number_of_cells := 4 }

theorem demo_corner0 :
    coords_of_corner_fun angleDemoMesh.coords_of_node angleDemoMesh.nodes_at_patch 1 0 =
      ((1 : ℝ), 0, 0) := by
  rw [show coords_of_corner_fun angleDemoMesh.coords_of_node angleDemoMesh.nodes_at_patch
      1 0 =
    scale3 ((1 : ℝ) / norm3 (cross3 (sub3 (toRV (0, 1, 0)) (toRV (0, 0, 0)))
        (sub3 (toRV (0, 0, 1)) (toRV (0, 0, 0)))))
      (cross3 (sub3 (toRV (0, 1, 0)) (toRV (0, 0, 0)))
        (sub3 (toRV (0, 0, 1)) (toRV (0, 0, 0)))) from rfl]
  have hcr : cross3 (sub3 (toRV (0, 1, 0)) (toRV (0, 0, 0)))
      (sub3 (toRV (0, 0, 1)) (toRV (0, 0, 0))) = ((1 : ℝ), 0, 0) := by
    simp only [toRV, sub3, cross3, Prod.mk.injEq]
    norm_num
  rw [hcr]
  have hn : norm3 ((1 : ℝ), 0, 0) = 1 := by
    simp only [norm3]
    rw [show (1 : ℝ) ^ 2 + 0 ^ 2 + 0 ^ 2 = 1 from by norm_num, Real.sqrt_one]
  rw [hn]
  simp only [scale3, Prod.mk.injEq]
  norm_num

theorem demo_corner1 :
    coords_of_corner_fun angleDemoMesh.coords_of_node angleDemoMesh.nodes_at_patch 1 1 =
      ((0 : ℝ), 1, 0) := by
  rw [show coords_of_corner_fun angleDemoMesh.coords_of_node angleDemoMesh.nodes_at_patch
      1 1 =
    scale3 ((1 : ℝ) / norm3 (cross3 (sub3 (toRV (0, 0, 1)) (toRV (0, 0, 0)))
        (sub3 (toRV (1, 0, 0)) (toRV (0, 0, 0)))))
      (cross3 (sub3 (toRV (0, 0, 1)) (toRV (0, 0, 0)))
        (sub3 (toRV (1, 0, 0)) (toRV (0, 0, 0)))) from rfl]
  have hcr : cross3 (sub3 (toRV (0, 0, 1)) (toRV (0, 0, 0)))
      (sub3 (toRV (1, 0, 0)) (toRV (0, 0, 0))) = ((0 : ℝ), 1, 0) := by
    simp only [toRV, sub3, cross3, Prod.mk.injEq]
    norm_num
  rw [hcr]
  have hn : norm3 ((0 : ℝ), 1, 0) = 1 := by
    simp only [norm3]
    rw [show (0 : ℝ) ^ 2 + 1 ^ 2 + 0 ^ 2 = 1 from by norm_num, Real.sqrt_one]
  rw [hn]
  simp only [scale3, Prod.mk.injEq]
  norm_num

theorem demo_corner2 :
    coords_of_corner_fun angleDemoMesh.coords_of_node angleDemoMesh.nodes_at_patch 1 2 =
      ((-1 : ℝ), 0, 0) := by
  rw [show coords_of_corner_fun angleDemoMesh.coords_of_node angleDemoMesh.nodes_at_patch
      1 2 =
    scale3 ((1 : ℝ) / norm3 (cross3 (sub3 (toRV (0, 0, 1)) (toRV (0, 0, 0)))
        (sub3 (toRV (0, 1, 0)) (toRV (0, 0, 0)))))
      (cross3 (sub3 (toRV (0, 0, 1)) (toRV (0, 0, 0)))
        (sub3 (toRV (0, 1, 0)) (toRV (0, 0, 0)))) from rfl]
  have hcr : cross3 (sub3 (toRV (0, 0, 1)) (toRV (0, 0, 0)))
      (sub3 (toRV (0, 1, 0)) (toRV (0, 0, 0))) = ((-1 : ℝ), 0, 0) := by
    simp only [toRV, sub3, cross3, Prod.mk.injEq]
    norm_num
  rw [hcr]
  have hn : norm3 ((-1 : ℝ), 0, 0) = 1 := by
    simp only [norm3]
    rw [show (-1 : ℝ) ^ 2 + 0 ^ 2 + 0 ^ 2 = 1 from by norm_num, Real.sqrt_one]
  rw [hn]
  simp only [scale3, Prod.mk.injEq]
  norm_num

/-- At the demo node the spherical frame is trivial, so the local angle
of a corner is just its normalised `atan2` in the xy plane. -/
theorem demo_localAngle_eval (c : ℤ) :
    localAngle angleDemoMesh.coords_of_node angleDemoMesh.nodes_at_patch 1 0 c =
      normAngle (atan2
        (coords_of_corner_fun angleDemoMesh.coords_of_node angleDemoMesh.nodes_at_patch 1
          c.toNat).2.1
        (coords_of_corner_fun angleDemoMesh.coords_of_node angleDemoMesh.nodes_at_patch 1
          c.toNat).1) := by
  simp only [localAngle]
  rw [show angleDemoMesh.coords_of_node.getD 0 (0, 0, 0) = ((0 : ℚ), 0, 1) from rfl]
  have hsph : cartesian_to_spherical (toRV ((0 : ℚ), 0, 1)).1 (toRV ((0 : ℚ), 0, 1)).2.1
      (toRV ((0 : ℚ), 0, 1)).2.2 = (1, 0, 0) := by
    simp only [toRV, cartesian_to_spherical, Prod.mk.injEq]
    norm_num [atan2, Real.sqrt_one, Real.arccos_one]
  rw [hsph]
  have hrot : ∀ v : RV3, rotate_zy v.1 v.2.1 v.2.2 (-(0 : ℝ)) (-(0 : ℝ)) = v := by
    intro v
    simp only [rotate_zy, neg_zero, Real.cos_zero, Real.sin_zero]
    rcases v with ⟨x, y, z⟩
    simp only [Prod.mk.injEq]
    norm_num
  rw [hrot]

theorem demo_angle0 :
    localAngle angleDemoMesh.coords_of_node angleDemoMesh.nodes_at_patch 1 0 0 = 0 := by
  rw [demo_localAngle_eval 0, show ((0 : ℤ).toNat) = 0 from rfl, demo_corner0]
  norm_num [atan2, normAngle, Real.arctan_zero]

theorem demo_angle1 :
    localAngle angleDemoMesh.coords_of_node angleDemoMesh.nodes_at_patch 1 0 1 =
      Real.pi / 2 := by
  rw [demo_localAngle_eval 1, show ((1 : ℤ).toNat) = 1 from rfl, demo_corner1]
  rw [show atan2 ((0 : ℝ), (1 : ℝ), (0 : ℝ)).2.1 ((0 : ℝ), (1 : ℝ), (0 : ℝ)).1 =
      Real.pi / 2 from by norm_num [atan2]]
  unfold normAngle
  rw [if_neg (not_lt.mpr (by positivity))]

theorem demo_angle2 :
    localAngle angleDemoMesh.coords_of_node angleDemoMesh.nodes_at_patch 1 0 2 =
      Real.pi := by
  rw [demo_localAngle_eval 2, show ((2 : ℤ).toNat) = 2 from rfl, demo_corner2]
  rw [show atan2 ((-1 : ℝ), (0 : ℝ), (0 : ℝ)).2.1 ((-1 : ℝ), (0 : ℝ), (0 : ℝ)).1 =
      Real.pi from by norm_num [atan2, Real.arctan_zero]]
  unfold normAngle
  rw [if_neg (not_lt.mpr (le_of_lt Real.pi_pos))]

/-- C1 (witness): the demo node's three corners have pairwise-distinct
angles `0 < pi/2 < pi`, so the sorted walk strictly increases. -/
theorem sort_corners_ccw_sorted_witness :
    ∃ sorted,
      (sort_corners_ccw angleDemoMesh 1).corners_at_node[0]? =
        some (sorted ++ ([0, 1, 2, -1, -1, -1] : List ℤ).drop
          (countValid [0, 1, 2, -1, -1, -1])) ∧
      List.Perm sorted (([0, 1, 2, -1, -1, -1] : List ℤ).take
        (countValid [0, 1, 2, -1, -1, -1])) ∧
      ((sorted.map (localAngle angleDemoMesh.coords_of_node angleDemoMesh.nodes_at_patch
        1 0)).Pairwise (· ≤ ·)) ∧
      ((sorted.map (localAngle angleDemoMesh.coords_of_node angleDemoMesh.nodes_at_patch
        1 0)).Pairwise (· < ·)) := by
  refine sort_corners_ccw_sorted angleDemoMesh 1 0 [0, 1, 2, -1, -1, -1] rfl ?_
  rw [show (([0, 1, 2, -1, -1, -1] : List ℤ).take (countValid [0, 1, 2, -1, -1, -1])) =
    [0, 1, 2] from rfl]
  have hpi : (0 : ℝ) < Real.pi := Real.pi_pos
  refine List.Pairwise.cons ?_ (List.Pairwise.cons ?_ (List.pairwise_singleton _ _))
  · intro b hb
    rcases List.mem_cons.mp hb with rfl | hb2
    · rw [demo_angle0, demo_angle1]
      intro hcon
      rw [eq_comm] at hcon
      have : Real.pi = 0 := by linarith
      linarith
    · rw [List.mem_singleton] at hb2
      subst hb2
      rw [demo_angle0, demo_angle2]
      intro hcon
      rw [eq_comm] at hcon
      linarith
  · intro b hb
    rw [List.mem_singleton] at hb
    subst hb
    rw [demo_angle1, demo_angle2]
    intro hcon
    linarith

/-! ## Claim C8 -/

/-- C8 (code bug): the spherical-coordinate properties behave as claimed
— computed on a cache miss, cached, and returned unchanged from the cache
thereafter — but `area_of_patch` can never return a value: its recompute
path executes `self._calc_area_of_patch(self)` (a bound method handed a
second positional `self`, a `TypeError`), and the stub body is `pass`, so
`_area_of_patch` is never assigned.  On any constructed mesh, whose area
cache is necessarily empty, accessing `area_of_patch` fails. -/
theorem lazy_properties_behaviour (vertices : List Vec3) (ico_faces : List Tri)
    (m : PreMesh) (radius : ℝ) (hm : buildStruct vertices ico_faces = some m) :
    area_of_patch_access (constructedState m radius) = none ∧
    (∀ s : MeshState, s.cacheSph = none →
      r_of_node_access s =
        ((node_spherical_coords s.mesh.coords_of_node).1,
          { s with cacheSph := some (node_spherical_coords s.mesh.coords_of_node) })) ∧
    (∀ (s : MeshState) (v : List ℝ × List ℝ × List ℝ), s.cacheSph = some v →
      r_of_node_access s = (v.1, s) ∧ phi_of_node_access s = (v.2.1, s) ∧
        theta_of_node_access s = (v.2.2, s)) := by
  refine ⟨rfl, ?_, ?_⟩
  · intro s hs
    simp only [r_of_node_access, hs]
  · intro s v hs
    simp only [r_of_node_access, phi_of_node_access, theta_of_node_access, hs]
    exact ⟨trivial, trivial, trivial⟩

/-- C8 (witness): the constructed tetrahedron mesh instantiates the
failing `area_of_patch` access. -/
theorem lazy_properties_behaviour_witness :
    ∃ m, buildStruct tetraVerts tetraFaces = some m ∧
      area_of_patch_access (constructedState m 1) = none := by
  have h : (buildStruct tetraVerts tetraFaces).isSome = true := by decide
  refine ⟨(buildStruct tetraVerts tetraFaces).get h, (Option.some_get h).symm, ?_⟩
  exact (lazy_properties_behaviour tetraVerts tetraFaces _ 1 (Option.some_get h).symm).1

end DualIcosphere
